import Mathlib

namespace DocxTemplater

/-- Document text modelled as a list of characters. -/
abbrev Str := List Char

/-- Image descriptor from the data tree: raw bytes, file extension,
optional width/height in inches. -/
structure ImageDescr where
  buffer : List Nat
  extension : Str
  widthInches : Option ℚ
  heightInches : Option ℚ

mutual
/-- A value of the data tree: null/undefined, boolean, number (integral model of
the JS number), string, list, image descriptor, or a plain object. -/
inductive Value where
  | vNull
  | vBool (b : Bool)
  | vNum (n : Int)
  | vStr (s : Str)
  | vList (items : VList)
  | vImage (d : ImageDescr)
  | vObj (fields : VFields)

/-- A list of values (the elements of a JS array in the data tree). -/
inductive VList where
  | nil
  | cons (hd : Value) (tl : VList)

/-- The fields of a plain JS object in the data tree. -/
inductive VFields where
  | fnil
  | fcons (name : Str) (hd : Value) (tl : VFields)
end

/-- Convert a Lean list of values into a `VList`. -/
def VList.ofList : List Value → VList
  | [] => .nil
  | v :: vs => .cons v (VList.ofList vs)

/-- Convert a `VList` back into a Lean list of values. -/
def VList.toList : VList → List Value
  | .nil => []
  | .cons v vs => v :: VList.toList vs

/-- Field lookup in a plain object (first binding wins, as JS object keys are unique). -/
def VFields.lookup : VFields → Str → Option Value
  | .fnil, _ => none
  | .fcons name v tl, k => if name = k then some v else VFields.lookup tl k

/-- Build `VFields` from an association list. -/
def VFields.ofList : List (Str × Value) → VFields
  | [] => .fnil
  | (k, v) :: tl => .fcons k v (VFields.ofList tl)

/-- Is a value JS `null`/`undefined` (the code's `item != null` test). -/
def isNullV : Value → Bool
  | .vNull => true
  | _ => false

/-- Comma-join used by JS `Array.prototype.toString`. -/
def commaJoin : List Str → Str
  | [] => []
  | [x] => x
  | x :: xs => x ++ ',' :: commaJoin xs

mutual
/-- JS `String(value)` for data values; lists stringify as their comma-joined
elements (null elements become empty), objects as `[object Object]`. -/
def jsString : Value → Str
  | .vNull => ("null").toList
  | .vBool true => ("true").toList
  | .vBool false => ("false").toList
  | .vNum n => (toString n).toList
  | .vStr s => s
  | .vList items => commaJoin (jsStringElems items)
  | .vImage _ => ("[object Object]").toList
  | .vObj _ => ("[object Object]").toList

/-- Stringified elements of an array, `null`/`undefined` elements rendering empty. -/
def jsStringElems : VList → List Str
  | .nil => []
  | .cons v tl => (if isNullV v then [] else jsString v) :: jsStringElems tl
end

example : jsString (.vList (VList.ofList [.vNum 1, .vNull, .vStr ("a").toList]))
    = ("1,,a").toList := by decide

/-! ### String utilities mirroring the JS string operations -/

/-- The regex word character class `\w` (`[A-Za-z0-9_]`). -/
def isWordChar (c : Char) : Bool := c.isAlphanum || c = '_'

/-- Longest leading run of word characters (`\w+` greedy matching). -/
def takeWord (s : Str) : Str := s.takeWhile isWordChar

/-- JS `String.prototype.indexOf(pat)`: index of the first occurrence of `pat`. -/
def findIdx (pat s : Str) : Option Nat :=
  match s with
  | [] => if pat = [] then some 0 else none
  | _ :: rest => if pat.isPrefixOf s then some 0 else (findIdx pat rest).map (· + 1)

/-- JS `String.prototype.indexOf(pat, i)`: first occurrence starting at or after `i`. -/
def findFrom (s pat : Str) (i : Nat) : Option Nat :=
  (findIdx pat (s.drop i)).map (· + i)

/-- JS `String.prototype.lastIndexOf(pat, bound)` scanning backwards: the largest
index `≤ bound` where `pat` occurs. -/
def lastIdxLe (s pat : Str) : Nat → Option Nat
  | 0 => if pat.isPrefixOf s then some 0 else none
  | bound + 1 =>
      if pat.isPrefixOf (s.drop (bound + 1)) then some (bound + 1) else lastIdxLe s pat bound

/-- JS `String.prototype.substring(i, j)` for `i ≤ j`. -/
def jsSubstring (s : Str) (i j : Nat) : Str := (s.drop i).take (j - i)

/-- JS `String.prototype.replace` with a plain-string pattern: replace the first
occurrence of `pat` by `repl`. -/
def replaceFirst (s pat repl : Str) : Str :=
  match findIdx pat s with
  | none => s
  | some i => s.take i ++ repl ++ s.drop (i + pat.length)

/-- JS `Array.prototype.join("")`. -/
def joinStr : List Str → Str
  | [] => []
  | x :: xs => x ++ joinStr xs

/-- Number of occurrences of a non-empty pattern (at each position, an occurrence
either starts there or not; occurrences may overlap). -/
def countSubstr (s pat : Str) : Nat :=
  match s with
  | [] => 0
  | _ :: rest => (if pat.isPrefixOf s then 1 else 0) + countSubstr rest pat

/-! ### The data tree and field access -/

/-- The caller-supplied data tree: an object mapping string keys to values. -/
abbrev DataTree := List (Str × Value)

/-- `data[key]` lookup; an absent key is JS `undefined`, modelled as `none`. -/
def lookupStr (data : DataTree) (k : Str) : Option Value :=
  match data with
  | [] => none
  | (key, v) :: rest => if key = k then some v else lookupStr rest k

/-- JS property access `item[k]` on an arbitrary value: objects look up their
fields; strings expose `length` (other string properties are not modelled);
every other primitive yields `undefined`. -/
def getField (item : Value) (k : Str) : Option Value :=
  match item with
  | .vObj fields => fields.lookup k
  | .vStr s => if k = ("length").toList then some (.vNum s.length) else none
  | .vImage d =>
      if k = ("type").toList then some (.vStr ("image").toList)
      else if k = ("extension").toList then some (.vStr d.extension)
      else none
  | _ => none

/-- The replacement used for `{field}` inside loop bodies and table rows:
`item[fieldName] != null ? String(item[fieldName]) : ""`. -/
def fieldRepl (item : Value) (k : Str) : Str :=
  match getField item k with
  | some v => if isNullV v then [] else jsString v
  | none => []

/-! ### The `{name}` scanner shared by the three `/{(\w+)}/g` replaces -/

/-- One fuelled step of the global regex replace `/{(\w+)}/g`: at a `{`, a
non-empty word run followed by `}` is a match and is replaced by `f key` (the
replacement text is not rescanned); otherwise the character is copied. -/
def substFieldsAux (f : Str → Str) : Nat → Str → Str
  | 0, _ => []
  | _, [] => []
  | fuel + 1, c :: rest =>
      if c = '\x7b' then
        let w := takeWord rest
        if w ≠ [] ∧ (rest.drop w.length).head? = some '\x7d' then
          f w ++ substFieldsAux f fuel (rest.drop (w.length + 1))
        else
          c :: substFieldsAux f fuel rest
      else
        c :: substFieldsAux f fuel rest

/-- Global regex replace `/{(\w+)}/g` with replacement function `f`. -/
def substFields (f : Str → Str) (s : Str) : Str := substFieldsAux f (s.length + 1) s

/-- The source's image test
`value && typeof value === "object" && "type" in value && value.type === "image"`:
true for image descriptors and for plain objects whose `type` field is the
string `"image"`; arrays have no `type` property. -/
def isImageVal : Value → Bool
  | .vImage _ => true
  | .vObj fields =>
      match fields.lookup (("type").toList) with
      | some (.vStr s) => s = ("image").toList
      | _ => false
  | _ => false

/-- The simple-placeholder replacement for `{name}` (the engine's last text pass):
strings verbatim, numbers/booleans stringified, image descriptors become the
internal `__IMAGE__name__` marker, everything else empty. -/
def simpleReplace (data : DataTree) (k : Str) : Str :=
  match lookupStr data k with
  | some (.vStr s) => s
  | some (.vNum n) => jsString (.vNum n)
  | some (.vBool b) => jsString (.vBool b)
  | some v =>
      if isImageVal v then ("__IMAGE__").toList ++ k ++ ("__").toList else []
  | none => []

/-- Handle simple replacements `{name}` against the data tree. -/
def simplePass (data : DataTree) (s : Str) : Str := substFields (simpleReplace data) s

example : substFields (fun w => w ++ w) ("a\x7bxy\x7db").toList = ("axyxyb").toList := by decide

/-! ### Loop expansion `{#name}…{/name}` -/

/-- JS `ToBoolean` on data values (`NaN` is outside the integral number model). -/
def jsToBool : Value → Bool
  | .vNull => false
  | .vBool b => b
  | .vNum n => n != 0
  | .vStr s => !s.isEmpty
  | .vList _ => true
  | .vImage _ => true
  | .vObj _ => true

/-- If the text starts with `pfx` followed by a non-empty word run and `}`,
return that word (the tag key); otherwise `none`. -/
def tagKeyAfter (pfx : Str) (s : Str) : Option Str :=
  if pfx.isPrefixOf s then
    let w := takeWord (s.drop pfx.length)
    if w ≠ [] ∧ (s.drop (pfx.length + w.length)).head? = some '\x7d' then some w else none
  else none

/-- Does the text start with a loop opening tag `{#name}`? -/
def loopOpenAt (s : Str) : Option Str := tagKeyAfter (("\x7b#").toList) s

/-- The closing tag `{/name}` for a matched key (the regex back-reference). -/
def closeTag (k : Str) : Str := ("\x7b/").toList ++ k ++ ("\x7d").toList

/-- The replacement callback of the loop pass (source lines 249–273): a falsy
value, a non-array, or an empty array each yield the empty string plus one
warning; otherwise the non-null items are mapped over the body with `{field}`
substitution and joined without separator. -/
def expandLoopConstruct (v : Option Value) (inner : Str) : Str × Nat :=
  match v with
  | none => ([], 1)
  | some val =>
      if !jsToBool val then ([], 1)
      else
        match val with
        | .vList items =>
            let l := items.toList
            if l.length = 0 then ([], 1)
            else
              (joinStr ((l.filter fun it => !isNullV it).map
                fun it => substFields (fieldRepl it) inner), 0)
        | _ => ([], 1)

/-- Reference definition of loop expansion following the spec's words (claim C1):
absent, null, not a list, or an empty list expand to the empty string with
exactly one warning; otherwise one copy of the body per item in list order,
null/absent items skipped, `{field}` replaced by the stringified field value
(missing/null field empty), concatenated with no separator. -/
def loopConstructRef (v : Option Value) (inner : Str) : Str × Nat :=
  match v with
  | none => ([], 1)
  | some .vNull => ([], 1)
  | some (.vList items) =>
      let l := items.toList
      if l.isEmpty then ([], 1)
      else
        (joinStr ((l.filter fun it => !isNullV it).map
          fun it => substFields (fieldRepl it) inner), 0)
  | some _ => ([], 1)

/-- The global non-greedy loop pass `/{#(\w+)}([\s\S]*?){\/\1}/g`: at each
opening tag the body extends to the nearest matching close tag; an unmatched
open is left as literal text and scanning resumes one character further. -/
def loopPassAux (data : DataTree) : Nat → Str → Str × Nat
  | 0, _ => ([], 0)
  | _, [] => ([], 0)
  | fuel + 1, c :: rest =>
      match loopOpenAt (c :: rest) with
      | some k =>
          let after := (c :: rest).drop (3 + k.length)
          match findIdx (closeTag k) after with
          | some e =>
              let inner := after.take e
              let rep := expandLoopConstruct (lookupStr data k) inner
              let tl := loopPassAux data fuel (after.drop (e + (closeTag k).length))
              (rep.1 ++ tl.1, rep.2 + tl.2)
          | none =>
              let tl := loopPassAux data fuel rest
              (c :: tl.1, tl.2)
      | none =>
          let tl := loopPassAux data fuel rest
          (c :: tl.1, tl.2)

/-- Handle loops `{#array}…{/array}` (result text and warning count). -/
def loopPass (data : DataTree) (s : Str) : Str × Nat := loopPassAux data (s.length + 1) s

/-! ### Conditional expansion `{?name}…{:else}…{/name}` -/

/-- The conditional guard (source lines 283–289):
`condition && condition !== "false" && condition !== "0" && condition !== "" &&
!(Array.isArray(condition) && condition.length === 0)`. -/
def condTruthy (v : Option Value) : Bool :=
  match v with
  | none => false
  | some val =>
      jsToBool val
        && !(match val with | .vStr s => s = ("false").toList | _ => false)
        && !(match val with | .vStr s => s = ("0").toList | _ => false)
        && !(match val with | .vStr s => s.isEmpty | _ => false)
        && !(match val with | .vList items => items.toList.isEmpty | _ => false)

/-- The replacement callback of the conditional pass: the if-branch exactly when
the guard is truthy, otherwise the else-branch (empty when absent). -/
def expandCondConstruct (v : Option Value) (ifC elseC : Str) : Str :=
  if condTruthy v then ifC else elseC

/-- The falsy table exactly as the spec states it (claim C2): boolean `false`,
the strings `"false"`, `"0"`, `""`, null, absent, the empty list, and the
number `0`. -/
def specFalsyCond : Option Value → Bool
  | none => true
  | some .vNull => true
  | some (.vBool b) => !b
  | some (.vNum n) => n == 0
  | some (.vStr s) =>
      s = ("false").toList || s = ("0").toList || s.isEmpty
  | some (.vList items) => items.toList.isEmpty
  | some _ => false

/-- Does the text start with a conditional opening tag `{?name}`? -/
def condOpenAt (s : Str) : Option Str := tagKeyAfter (("\x7b?").toList) s

/-- The literal `{:else}` tag. -/
def elseTag : Str := ("\x7b:else\x7d").toList

/-- The global non-greedy conditional pass
`/{\?(\w+)}([\s\S]*?)(?:{:else}([\s\S]*?))?{\/\1}/g`: the construct ends at the
nearest matching close tag; the else-branch starts at the first `{:else}`
before that close tag, if any. -/
def condPassAux (data : DataTree) : Nat → Str → Str
  | 0, _ => []
  | _, [] => []
  | fuel + 1, c :: rest =>
      match condOpenAt (c :: rest) with
      | some k =>
          let after := (c :: rest).drop (3 + k.length)
          match findIdx (closeTag k) after with
          | some e =>
              let body := after.take e
              let branches :=
                match findIdx elseTag body with
                | some f => (body.take f, body.drop (f + 7))
                | none => (body, [])
              expandCondConstruct (lookupStr data k) branches.1 branches.2
                ++ condPassAux data fuel (after.drop (e + (closeTag k).length))
          | none => c :: condPassAux data fuel rest
      | none => c :: condPassAux data fuel rest

/-- Handle conditionals `{?condition}…{:else}…{/condition}`. -/
def condPass (data : DataTree) (s : Str) : Str := condPassAux data (s.length + 1) s

/-! ### Table-row expansion `{table:name}` -/

/-- The literal table marker `{table:name}`. -/
def tableMarkerStr (k : Str) : Str := ("\x7btable:").toList ++ k ++ ("\x7d").toList

/-- Does the text start with a table marker `{table:name}`? -/
def tableAt (s : Str) : Option Str := tagKeyAfter (("\x7btable:").toList) s

/-- Scanner behind `Array.from(xmlString.matchAll(/{table:(\w+)}/g))`: every
marker match with its index, left to right, continuing after each match. -/
def scanTableAux : Nat → Str → Nat → List (Nat × Str)
  | 0, _, _ => []
  | _, [], _ => []
  | fuel + 1, c :: rest, i =>
      match tableAt (c :: rest) with
      | some k => (i, k) :: scanTableAux fuel ((c :: rest).drop (8 + k.length)) (i + (8 + k.length))
      | none => scanTableAux fuel rest (i + 1)

/-- All `{table:(\w+)}` matches of the document with their indices. -/
def scanTableMatches (s : Str) : List (Nat × Str) := scanTableAux (s.length + 1) s 0

/-- `rowTemplate.replace(/{table:\w+}/, "")`: remove the first table marker
(of any key). -/
def removeFirstTableMarker : Str → Str
  | [] => []
  | c :: rest =>
      match tableAt (c :: rest) with
      | some k => (c :: rest).drop (8 + k.length)
      | none => c :: removeFirstTableMarker rest

/-- The guard `!Array.isArray(arr) || arr.length === 0` as a lookup: `some`
exactly when the key holds a non-empty list. -/
def lookupList (data : DataTree) (k : Str) : Option (List Value) :=
  match lookupStr data k with
  | some (.vList items) =>
      let l := items.toList
      if l.isEmpty then none else some l
  | _ => none

/-- One iteration of the table loop (source lines 301–353), acting on the
current text and warning count. The supplied match index comes from the scan of
the pre-pass text; the row boundaries are searched in the current text around
that index. A missing/empty key, or a missing row boundary, removes the first
occurrence of the literal marker and warns. -/
def tableStep (data : DataTree) (acc : Str × Nat) (m : Nat × Str) : Str × Nat :=
  let s := acc.1
  match lookupList data m.2 with
  | none => (replaceFirst s (tableMarkerStr m.2) [], acc.2 + 1)
  | some items =>
      match lastIdxLe s (("<w:tr").toList) m.1, findFrom s (("</w:tr>").toList) m.1 with
      | some trStart, some e =>
          let trEnd := e + 7
          let rowTemplate := jsSubstring s trStart trEnd
          let newRows := joinStr ((items.filter fun it => !isNullV it).map
            fun it => substFields (fieldRepl it) (removeFirstTableMarker rowTemplate))
          (s.take trStart ++ newRows ++ s.drop trEnd, acc.2)
      | _, _ => (replaceFirst s (tableMarkerStr m.2) [], acc.2 + 1)

/-- Handle table generation `{table:arrayName}`: the matches of the incoming
text are scanned once, then each is processed against the then-current text. -/
def tablePass (data : DataTree) (s : Str) : Str × Nat :=
  (scanTableMatches s).foldl (tableStep data) (s, 0)

/-- The full text pipeline of `generateDocx` after run normalization:
loops, then conditionals, then tables, then simple placeholders. -/
def expandText (data : DataTree) (s : Str) : Str :=
  simplePass data (tablePass data (condPass data (loopPass data s).1)).1

/-! ### Image layout (`createImageXML`, source lines 744–794) -/

/-- JS `Math.round`: round half toward positive infinity. -/
def jsRound (q : ℚ) : ℤ := ⌊q + 1 / 2⌋

/-- JS truthiness of an optional number field (`imageData.widthInches || …`):
absent and `0` are falsy. -/
def optInchTruthy : Option ℚ → Bool
  | none => false
  | some q => q != 0

/-- The `cx`/`cy` computation of `createImageXML` over exact rationals, from the
sniffed pixel dimensions `(w, h)` and the descriptor's optional inch sizes:
both given uses exact conversions, one given preserves the sniffed aspect,
neither given converts pixels at 9525 EMU per pixel and caps both dimensions at
6 inches, scaling width first then height. -/
def createImageXMLDims (w h : ℚ) (img : ImageDescr) : ℚ × ℚ :=
  let cx0 : ℚ := w * 9525
  let cy0 : ℚ := h * 9525
  if optInchTruthy img.widthInches || optInchTruthy img.heightInches then
    if optInchTruthy img.widthInches && optInchTruthy img.heightInches then
      ((img.widthInches.getD 0) * 914400, (img.heightInches.getD 0) * 914400)
    else if optInchTruthy img.widthInches then
      let aspect := h / w
      let cx := (img.widthInches.getD 0) * 914400
      (cx, cx * aspect)
    else
      let aspect := w / h
      let cy := (img.heightInches.getD 0) * 914400
      (cy * aspect, cy)
  else
    let maxEMU : ℚ := 6 * 914400
    let p1 := if cx0 > maxEMU then (maxEMU, cy0 * (maxEMU / cx0)) else (cx0, cy0)
    if p1.2 > maxEMU then (p1.1 * (maxEMU / p1.2), maxEMU) else p1

/-- The whole-EMU dimensions interpolated into the drawing markup:
`Math.round(cx)` and `Math.round(cy)`. -/
def createImageXMLEmitted (w h : ℚ) (img : ImageDescr) : ℤ × ℤ :=
  (jsRound (createImageXMLDims w h img).1, jsRound (createImageXMLDims w h img).2)

/-! ### Raster dimension sniffer (`getImageSize`, source lines 12–71) -/

/-- `bytes[i]` on a `Uint8Array`: an out-of-range read is `undefined`, which the
arithmetic contexts of this function coerce to `0`. -/
def byteAt (bytes : List Nat) (i : Nat) : Int := (bytes.getD i 0 : Nat)

/-- JS `ToInt32`. -/
def toInt32 (n : Int) : Int :=
  let m := n % 4294967296
  if m ≥ 2147483648 then m - 4294967296 else m

/-- JS `ToUint32`, as a natural number. -/
def toUInt32 (n : Int) : Nat := (n % 4294967296).toNat

/-- JS `a << b` (32-bit). -/
def jsShl (a b : Int) : Int := toInt32 (toInt32 a * 2 ^ (toUInt32 b % 32))

/-- JS `a | b` (32-bit). -/
def jsOr (a b : Int) : Int := toInt32 (Int.ofNat (Nat.lor (toUInt32 a) (toUInt32 b)))

/-- PNG signature check: `89 50 4E 47`. -/
def pngSigB (bytes : List Nat) : Bool :=
  bytes.getD 0 0 == 0x89 && bytes.getD 1 0 == 0x50
    && bytes.getD 2 0 == 0x4e && bytes.getD 3 0 == 0x47

/-- JPEG signature check: `FF D8`. -/
def jpegSigB (bytes : List Nat) : Bool :=
  bytes.getD 0 0 == 0xff && bytes.getD 1 0 == 0xd8

/-- GIF signature check: `47 49 46 38` (`GIF8`). -/
def gifSigB (bytes : List Nat) : Bool :=
  bytes.getD 0 0 == 0x47 && bytes.getD 1 0 == 0x49
    && bytes.getD 2 0 == 0x46 && bytes.getD 3 0 == 0x38

/-- The JPEG `while (i < bytes.length - 8)` marker scan: at an `FF` byte, an SOF
marker `C0`–`C3` yields the big-endian height/width behind it, any other marker
skips its declared segment length, and a non-`FF` byte advances by one. The fuel
dominates the iteration count; in JS the loop guard uses integer subtraction,
which agrees with truncated subtraction here because `i ≥ 2`. -/
def jpegScanAux (bytes : List Nat) : Nat → Nat → Option (Int × Int)
  | 0, _ => none
  | fuel + 1, i =>
      if i < bytes.length - 8 then
        if bytes.getD i 0 = 0xff then
          let marker := bytes.getD (i + 1) 0
          if 0xc0 ≤ marker ∧ marker ≤ 0xc3 then
            let height := jsOr (jsShl (byteAt bytes (i + 5)) 8) (byteAt bytes (i + 6))
            let width := jsOr (jsShl (byteAt bytes (i + 7)) 8) (byteAt bytes (i + 8))
            some (width, height)
          else
            let seglen := jsOr (jsShl (byteAt bytes (i + 2)) 8) (byteAt bytes (i + 3))
            jpegScanAux bytes fuel (i + seglen.toNat + 2)
        else jpegScanAux bytes fuel (i + 1)
      else none

/-- Cross-platform image size detection: PNG/JPEG/GIF headers, with the fixed
fallback `(100, 100)` when no format is recognized (including a JPEG whose scan
finds no SOF marker). Total on every byte sequence. -/
def getImageSize (bytes : List Nat) : Int × Int :=
  if pngSigB bytes then
    (jsOr (jsOr (jsOr (jsShl (byteAt bytes 16) 24) (jsShl (byteAt bytes 17) 16))
        (jsShl (byteAt bytes 18) 8)) (byteAt bytes 19),
      jsOr (jsOr (jsOr (jsShl (byteAt bytes 20) 24) (jsShl (byteAt bytes 21) 16))
        (jsShl (byteAt bytes 22) 8)) (byteAt bytes 23))
  else
    match (if jpegSigB bytes then jpegScanAux bytes (bytes.length + 1) 2 else none) with
    | some wh => wh
    | none =>
        if gifSigB bytes then
          (jsOr (byteAt bytes 6) (jsShl (byteAt bytes 7) 8),
            jsOr (byteAt bytes 8) (jsShl (byteAt bytes 9) 8))
        else (100, 100)

/-! ### Image relationship identifiers (source lines 386–414 and 647–674) -/

/-- The data-tree keys holding images, in entry order (`Object.entries`). -/
def imageKeys (data : DataTree) : List Str := (data.filter fun kv => isImageVal kv.2).map (·.1)

/-- The numeric parts of the relationship ids assigned to the embedded images:
`let relIdCounter = 100` then `rId${relIdCounter++}` per image, so the textual
id of the `i`-th image is `"rId"` followed by the decimal of `100 + i`. -/
def newRelIds (data : DataTree) : List Nat :=
  (List.range (imageKeys data).length).map (100 + ·)

/-! ### Run normalization (`normalizeDocxText`, source lines 92–210),
modelled on the ordered `<w:t>` fragment contents -/

/-- A placeholder-shaped span found in the concatenated text: the match of
`/{[^}]+}/g` with its start/end offsets and literal text. -/
structure Span where
  start : Nat
  stop : Nat
  text : Str

/-- Scanner for `/{[^}]+}/g`: at `{`, the greedy non-`}` run must be non-empty
and followed by `}`; matching continues after each match. -/
def scanSpansAux : Nat → Str → Nat → List Span
  | 0, _, _ => []
  | _, [], _ => []
  | fuel + 1, c :: rest, i =>
      if c = '\x7b' then
        let body := rest.takeWhile fun d => d ≠ '\x7d'
        if body ≠ [] ∧ (rest.drop body.length).head? = some '\x7d' then
          { start := i, stop := i + body.length + 2,
              text := c :: body ++ ("\x7d").toList } ::
            scanSpansAux fuel (rest.drop (body.length + 1)) (i + body.length + 2)
        else scanSpansAux fuel rest (i + 1)
      else scanSpansAux fuel rest (i + 1)

/-- All `/{[^}]+}/g` matches of the concatenated text. -/
def scanSpans (s : Str) : List Span := scanSpansAux (s.length + 1) s 0

/-- The fragments paired with their start offsets in the concatenated text. -/
def withOffsets : List Str → Nat → List (Nat × Str)
  | [], _ => []
  | t :: ts, off => (off, t) :: withOffsets ts (off + t.length)

/-- Does a span overlap the fragment at offset `st` of length `len`
(`elStart < replacement.end && elEnd > replacement.start`)? -/
def overlapB (st len : Nat) (sp : Span) : Bool := st < sp.stop && st + len > sp.start

/-- Stable insertion into a start-sorted span list. -/
def insertByStart (sp : Span) : List Span → List Span
  | [] => [sp]
  | x :: xs => if sp.start ≤ x.start then sp :: x :: xs else x :: insertByStart sp xs

/-- The source's `sort((a, b) => a.start - b.start)` as a stable insertion sort
(the scanner already yields strictly increasing starts, so this is the
identity there). -/
def sortByStart : List Span → List Span
  | [] => []
  | x :: xs => insertByStart x (sortByStart xs)

/-- One overlapping span's contribution when rebuilding a fragment's content:
text before the span (clipped to the fragment), the span text when it starts
inside the fragment, and the cursor moved past the span. -/
def rebuildStep (full : Str) (elStart elEnd : Nat) (acc : Str × Nat) (sp : Span) : Str × Nat :=
  let beforeStart := max acc.2 elStart
  let beforeEnd := min sp.start elEnd
  let c1 := if beforeStart < beforeEnd then acc.1 ++ jsSubstring full beforeStart beforeEnd
      else acc.1
  let c2 := if elStart ≤ sp.start ∧ sp.start < elEnd then c1 ++ sp.text else c1
  (c2, max acc.2 sp.stop)

/-- Rebuild one fragment's content from its overlapping spans (start-sorted),
then append the remaining text after the last span. -/
def rebuildContent (full : Str) (elStart elEnd : Nat) (sps : List Span) : Str :=
  let r := sps.foldl (rebuildStep full elStart elEnd) ([], elStart)
  if r.2 < elEnd then r.1 ++ jsSubstring full r.2 elEnd else r.1

/-- One fragment's final content: a fragment with no overlapping span is left
untouched, otherwise its content is rebuilt from its overlapping spans in
start order. -/
def normalizeElement (full : Str) (sps : List Span) (el : Nat × Str) : Str :=
  let ov := sortByStart (sps.filter (overlapB el.1 el.2.length))
  if ov.isEmpty then el.2
  else rebuildContent full el.1 (el.1 + el.2.length) ov

/-- Normalize the ordered `<w:t>` fragment contents: concatenate, find the
placeholder-shaped spans, and rebuild every fragment that overlaps a span.
The source's second phase (clearing overlapped elements that received no
rebuilt content) never fires, because the first phase assigns content to every
element with at least one overlapping span; the per-element result is the
element's final state. -/
def normalizeDocxText (frags : List Str) : List Str :=
  (withOffsets frags 0).map (normalizeElement (joinStr frags) (scanSpans (joinStr frags)))

/-! ### Occurrence infrastructure for the scanning proofs -/

/-- Decidable word-key check: non-empty and all word characters. -/
def wordKeyB (k : Str) : Bool := !k.isEmpty && k.all isWordChar

lemma isPrefixOf_nil_eq_false {pat : Str} (h : pat ≠ []) : pat.isPrefixOf [] = false := by
  cases pat with
  | nil => exact absurd rfl h
  | cons c cs => rfl

lemma drop_oob {s : Str} {j : Nat} (h : s.length ≤ j) : s.drop j = [] :=
  List.drop_eq_nil_of_le h

lemma takeWord_append_stop {k : Str} (rest : Str) (hw : ∀ c ∈ k, isWordChar c)
    {d : Char} (hd : isWordChar d = false) :
    takeWord (k ++ d :: rest) = k := by
  unfold takeWord
  rw [List.takeWhile_append_of_pos hw]
  simp [List.takeWhile_cons, hd]

lemma isPrefixOf_append_self (pfx rest : Str) : pfx.isPrefixOf (pfx ++ rest) = true := by
  simp

/-- A tag head `pfx` followed by a word key, `}`, and arbitrary text is
recognized with exactly that key. -/
lemma tagKeyAfter_append {pfx k : Str} (rest : Str) (hw : wordKeyB k = true) :
    tagKeyAfter pfx (pfx ++ (k ++ '\x7d' :: rest)) = some k := by
  have hall : ∀ c ∈ k, isWordChar c := fun c hc =>
    List.all_eq_true.mp ((Bool.and_eq_true ..).mp hw).2 c hc
  have hne : k ≠ [] := by
    have := ((Bool.and_eq_true ..).mp hw).1
    simpa using this
  unfold tagKeyAfter
  rw [isPrefixOf_append_self, List.drop_left,
    takeWord_append_stop rest hall (by decide : isWordChar '\x7d' = false)]
  have hdrop : (pfx ++ (k ++ '\x7d' :: rest)).drop (pfx.length + k.length)
      = '\x7d' :: rest := by
    rw [← List.drop_drop, List.drop_left, List.drop_left]
  simp [hdrop, hne]

/-- Soundness of tag recognition: a recognized key decomposes the text. -/
lemma tagKeyAfter_some {pfx s k : Str} (h : tagKeyAfter pfx s = some k) :
    wordKeyB k = true ∧ ∃ rest, s = pfx ++ (k ++ '\x7d' :: rest) := by
  unfold tagKeyAfter at h
  by_cases hpre : pfx.isPrefixOf s = true
  case neg =>
    rw [Bool.not_eq_true] at hpre
    rw [hpre] at h
    simp at h
  case pos =>
  rw [hpre] at h
  simp only [if_true] at h
  by_cases hcond : takeWord (s.drop pfx.length) ≠ []
      ∧ (s.drop (pfx.length + (takeWord (s.drop pfx.length)).length)).head? = some '\x7d'
  case neg =>
    rw [if_neg hcond] at h
    simp at h
  case pos =>
  rw [if_pos hcond] at h
  have hk : takeWord (s.drop pfx.length) = k := Option.some.inj h
  obtain ⟨t, ht⟩ := List.isPrefixOf_iff_prefix.mp hpre
  have hdropt : s.drop pfx.length = t := by rw [← ht, List.drop_left]
  have hsplit : takeWord t ++ t.dropWhile isWordChar = t := by
    unfold takeWord
    exact List.takeWhile_append_dropWhile isWordChar t
  have hdropk : t.drop (takeWord t).length = t.dropWhile isWordChar := by
    nth_rewrite 2 [← hsplit]
    rw [List.drop_left]
  have hhead : (t.dropWhile isWordChar).head? = some '\x7d' := by
    have h2 := hcond.2
    rw [hdropt, ← List.drop_drop, hdropt, hdropk] at h2
    exact h2
  cases hdw : t.dropWhile isWordChar with
  | nil => rw [hdw] at hhead; simp at hhead
  | cons a r =>
      rw [hdw] at hhead
      simp only [List.head?_cons, Option.some.injEq] at hhead
      subst hhead
      rw [hdropt] at hk
      refine ⟨?_, ⟨r, ?_⟩⟩
      · have hne : takeWord (s.drop pfx.length) ≠ [] := hcond.1
        rw [hdropt, hk] at hne
        have hall : ∀ c ∈ k, isWordChar c := fun c hc =>
          List.mem_takeWhile_imp (by rw [← hk] at hc; exact hc)
        unfold wordKeyB
        rw [Bool.and_eq_true]
        exact ⟨by simpa [List.isEmpty_iff] using hne, List.all_eq_true.mpr hall⟩
      · rw [← ht, ← hsplit, hdw, hk]

/-- `indexOf` finds exactly the first occurrence. -/
lemma findIdx_eq_some_of (pat s : Str) (i : Nat) (hp : pat ≠ [])
    (hocc : pat.isPrefixOf (s.drop i) = true)
    (hmin : ∀ j < i, pat.isPrefixOf (s.drop j) = false) :
    findIdx pat s = some i := by
  induction s generalizing i with
  | nil =>
      rw [drop_oob (by simp), isPrefixOf_nil_eq_false hp] at hocc
      exact absurd hocc (by simp)
  | cons c rest ih =>
      unfold findIdx
      by_cases h0 : pat.isPrefixOf (c :: rest) = true
      · have hi : i = 0 := by
          by_contra hne
          have := hmin 0 (Nat.pos_of_ne_zero hne)
          rw [List.drop_zero] at this
          rw [this] at h0
          exact absurd h0 (by simp)
        subst hi
        rw [h0]
        simp
      · have h0' : pat.isPrefixOf (c :: rest) = false := by
          cases hb : pat.isPrefixOf (c :: rest)
          · rfl
          · exact absurd hb h0
        have hi : 1 ≤ i := by
          rcases Nat.eq_zero_or_pos i with h | h
          · subst h
            rw [List.drop_zero, h0'] at hocc
            exact absurd hocc (by simp)
          · exact h
        obtain ⟨i', rfl⟩ : ∃ i', i = i' + 1 := ⟨i - 1, by omega⟩
        rw [h0']
        simp only [Bool.false_eq_true, if_false]
        have hrec := ih i' ?_ ?_
        · rw [hrec]
          rfl
        · rw [← List.drop_succ_cons]
          exact hocc
        · intro j hj
          have : rest.drop j = (c :: rest).drop (j + 1) := (List.drop_succ_cons ..).symm
          rw [this]
          exact hmin (j + 1) (by omega)

/-- `lastIndexOf` with a bound finds the last occurrence at or before it. -/
lemma lastIdxLe_eq_some_of (s pat : Str) (i bound : Nat)
    (hocc : pat.isPrefixOf (s.drop i) = true) (hle : i ≤ bound)
    (hmax : ∀ j, i < j → j ≤ bound → pat.isPrefixOf (s.drop j) = false) :
    lastIdxLe s pat bound = some i := by
  induction bound with
  | zero =>
      have hi : i = 0 := by omega
      subst hi
      rw [List.drop_zero] at hocc
      unfold lastIdxLe
      rw [hocc]
      simp
  | succ b ih =>
      unfold lastIdxLe
      by_cases hcase : i = b + 1
      · subst hcase
        rw [hocc]
        simp
      · have hb1 : pat.isPrefixOf (s.drop (b + 1)) = false := hmax _ (by omega) (Nat.le_refl _)
        rw [hb1]
        simp only [Bool.false_eq_true, if_false]
        exact ih (by omega) (fun j h1 h2 => hmax j h1 (by omega))

lemma tableAt_nil : tableAt ([] : Str) = none := rfl

/-- Scan-step unfolding when the head position is not a marker. -/
lemma scanTableAux_cons_none {f : Nat} {c : Char} {rest : Str} {i : Nat}
    (h : tableAt (c :: rest) = none) :
    scanTableAux (f + 1) (c :: rest) i = scanTableAux f rest (i + 1) := by
  simp [scanTableAux, h]

/-- Scan-step unfolding at a marker. -/
lemma scanTableAux_cons_some {f : Nat} {c : Char} {rest : Str} {i : Nat} {k : Str}
    (h : tableAt (c :: rest) = some k) :
    scanTableAux (f + 1) (c :: rest) i
      = (i, k) :: scanTableAux f ((c :: rest).drop (8 + k.length)) (i + (8 + k.length)) := by
  simp [scanTableAux, h]

/-- A text with no marker match anywhere scans to the empty match list. -/
lemma scanTableAux_eq_nil (fuel : Nat) (s : Str) (i : Nat) (hfuel : s.length < fuel)
    (hnone : ∀ j, tableAt (s.drop j) = none) :
    scanTableAux fuel s i = [] := by
  induction fuel generalizing s i with
  | zero => cases s <;> rfl
  | succ f ih =>
      cases s with
      | nil => rfl
      | cons c rest =>
          have h0 := hnone 0
          rw [List.drop_zero] at h0
          rw [scanTableAux_cons_none h0]
          refine ih rest (i + 1) (by simp at hfuel ⊢; omega) (fun j => ?_)
          rw [(List.drop_succ_cons ..).symm.trans rfl]
          exact hnone (j + 1)

/-- A text whose only marker match is at `d` with key `k` scans to exactly that
one match. -/
lemma scanTableAux_unique (fuel : Nat) (s : Str) (i d : Nat) (k : Str)
    (hfuel : s.length < fuel)
    (hd : tableAt (s.drop d) = some k)
    (huniq : ∀ j, j ≠ d → tableAt (s.drop j) = none) :
    scanTableAux fuel s i = [(i + d, k)] := by
  induction fuel generalizing s i d with
  | zero => exact absurd hfuel (Nat.not_lt_zero _)
  | succ f ih =>
      cases s with
      | nil =>
          rw [drop_oob (by simp), tableAt_nil] at hd
          exact absurd hd (by simp)
      | cons c rest =>
          by_cases h0 : d = 0
          · subst h0
            rw [List.drop_zero] at hd
            rw [scanTableAux_cons_some hd]
            have htail : scanTableAux f ((c :: rest).drop (8 + k.length)) (i + (8 + k.length))
                = [] := by
              refine scanTableAux_eq_nil f _ _ ?_ (fun j => ?_)
              · simp at hfuel ⊢
                omega
              · rw [List.drop_drop]
                exact huniq ((8 + k.length) + j) (by omega)
            rw [htail]
            simp
          · obtain ⟨d', rfl⟩ : ∃ d', d = d' + 1 := ⟨d - 1, by omega⟩
            have h0' : tableAt (c :: rest) = none := by
              have := huniq 0 (by omega)
              rwa [List.drop_zero] at this
            rw [scanTableAux_cons_none h0']
            have harith : i + (d' + 1) = (i + 1) + d' := by omega
            rw [harith]
            refine ih rest (i + 1) d' (by simp at hfuel ⊢; omega) ?_ ?_
            · rw [← List.drop_succ_cons]
              exact hd
            · intro j hj
              rw [(List.drop_succ_cons ..).symm.trans rfl]
              exact huniq (j + 1) (by omega)

/-- `replace(/{table:\w+}/, "")` removes exactly the first marker match. -/
lemma removeFirstTableMarker_eq (s : Str) (d : Nat) (k : Str)
    (hd : tableAt (s.drop d) = some k)
    (hmin : ∀ j < d, tableAt (s.drop j) = none) :
    removeFirstTableMarker s = s.take d ++ s.drop (d + (8 + k.length)) := by
  induction s generalizing d with
  | nil =>
      rw [drop_oob (by simp), tableAt_nil] at hd
      exact absurd hd (by simp)
  | cons c rest ih =>
      by_cases h0 : d = 0
      · subst h0
        rw [List.drop_zero] at hd
        simp [removeFirstTableMarker, hd]
      · obtain ⟨d', rfl⟩ : ∃ d', d = d' + 1 := ⟨d - 1, by omega⟩
        have h0' : tableAt (c :: rest) = none := by
          have := hmin 0 (by omega)
          rwa [List.drop_zero] at this
        simp only [removeFirstTableMarker, h0']
        have hrec := ih d' ?_ ?_
        · rw [hrec]
          have hd2 : (d' + 1) + (8 + k.length) = (d' + (8 + k.length)) + 1 := by omega
          rw [List.take_succ_cons, hd2, List.drop_succ_cons]
          simp
        · rw [← List.drop_succ_cons]
          exact hd
        · intro j hj
          rw [(List.drop_succ_cons ..).symm.trans rfl]
          exact hmin (j + 1) (by omega)

lemma tableMarkerStr_append (k X : Str) :
    tableMarkerStr k ++ X = ("\x7btable:").toList ++ (k ++ '\x7d' :: X) := by
  simp [tableMarkerStr]

lemma tableMarkerStr_length (k : Str) : (tableMarkerStr k).length = 8 + k.length := by
  have h1 : (("\x7btable:").toList).length = 7 := rfl
  have h2 : (("\x7d").toList).length = 1 := rfl
  simp [tableMarkerStr, List.length_append, h1, h2]
  omega

/-- A marker match survives appending text on the right. -/
lemma tableAt_append_of_some {x k : Str} (post : Str) (h : tableAt x = some k) :
    tableAt (x ++ post) = some k := by
  obtain ⟨hw, rest, rfl⟩ := tagKeyAfter_some h
  have heq : (("\x7btable:").toList ++ (k ++ '\x7d' :: rest)) ++ post
      = ("\x7btable:").toList ++ (k ++ '\x7d' :: (rest ++ post)) := by simp
  rw [heq]
  exact tagKeyAfter_append _ hw

/-- Boundary-search characterization of one table-loop iteration with good
data: the searched row-start is the last `<w:tr` occurrence at or before the
supplied index and the row-end is the first `</w:tr>` occurrence at or after
it, both in the current text `s`; the text between them is spliced out and
replaced by the generated rows. -/
lemma tableStep_splice (data : DataTree) (s : Str) (warn mIdx p1 p2 : Nat) (k : Str)
    (items : List Value)
    (hlist : lookupList data k = some items)
    (hp1 : (("<w:tr").toList).isPrefixOf (s.drop p1) = true) (hp1le : p1 ≤ mIdx)
    (hp1max : ∀ j, p1 < j → j ≤ mIdx → (("<w:tr").toList).isPrefixOf (s.drop j) = false)
    (hp2 : (("</w:tr>").toList).isPrefixOf (s.drop p2) = true) (hp2ge : mIdx ≤ p2)
    (hp2min : ∀ j, mIdx ≤ j → j < p2 → (("</w:tr>").toList).isPrefixOf (s.drop j) = false) :
    tableStep data (s, warn) (mIdx, k)
      = (s.take p1 ++ joinStr ((items.filter fun it => !isNullV it).map
          fun it => substFields (fieldRepl it) (removeFirstTableMarker (jsSubstring s p1 (p2 + 7))))
          ++ s.drop (p2 + 7), warn) := by
  have hlast : lastIdxLe s (("<w:tr").toList) mIdx = some p1 :=
    lastIdxLe_eq_some_of s _ p1 mIdx hp1 hp1le hp1max
  have hfi : findIdx (("</w:tr>").toList) (s.drop mIdx) = some (p2 - mIdx) := by
    refine findIdx_eq_some_of _ _ (p2 - mIdx) (by decide) ?_ ?_
    · rw [List.drop_drop, show mIdx + (p2 - mIdx) = p2 by omega]
      exact hp2
    · intro j hj
      rw [List.drop_drop]
      exact hp2min (mIdx + j) (by omega) (by omega)
  have hfind : findFrom s (("</w:tr>").toList) mIdx = some p2 := by
    unfold findFrom
    rw [hfi]
    simp [Nat.sub_add_cancel hp2ge]
  have hlast' : lastIdxLe s ['<', 'w', ':', 't', 'r'] mIdx = some p1 := hlast
  have hfind' : findFrom s ['<', '/', 'w', ':', 't', 'r', '>'] mIdx = some p2 := hfind
  simp [tableStep, hlist, hlast', hfind']

/-- Removing the first marker from a row template whose only marker match sits
between `a` and `b` yields the template with the marker text excised. -/
lemma removeFirst_rowTemplate (a k b : Str) (hk : wordKeyB k = true)
    (hmin : ∀ j < 5 + a.length,
      tableAt ((("<w:tr").toList ++ (a ++ (tableMarkerStr k ++ (b ++ ("</w:tr>").toList)))).drop j)
        = none) :
    removeFirstTableMarker
        (("<w:tr").toList ++ (a ++ (tableMarkerStr k ++ (b ++ ("</w:tr>").toList))))
      = ("<w:tr").toList ++ (a ++ (b ++ ("</w:tr>").toList)) := by
  have h5 : (("<w:tr").toList).length = 5 := rfl
  have hgroupT : ("<w:tr").toList ++ (a ++ (tableMarkerStr k ++ (b ++ ("</w:tr>").toList)))
      = (("<w:tr").toList ++ a) ++ (tableMarkerStr k ++ (b ++ ("</w:tr>").toList)) := by
    simp
  have hdT : tableAt
      ((("<w:tr").toList ++ (a ++ (tableMarkerStr k ++ (b ++ ("</w:tr>").toList)))).drop
        (5 + a.length)) = some k := by
    rw [hgroupT, List.drop_left' (by simp only [List.length_append, h5])]
    rw [tableMarkerStr_append]
    exact tagKeyAfter_append _ hk
  rw [removeFirstTableMarker_eq _ (5 + a.length) k hdT hmin]
  have htake : (("<w:tr").toList ++ (a ++ (tableMarkerStr k ++ (b ++ ("</w:tr>").toList)))).take
      (5 + a.length) = ("<w:tr").toList ++ a := by
    rw [hgroupT]
    exact List.take_left' (by simp only [List.length_append, h5])
  have hgroupD : ("<w:tr").toList ++ (a ++ (tableMarkerStr k ++ (b ++ ("</w:tr>").toList)))
      = (("<w:tr").toList ++ (a ++ tableMarkerStr k)) ++ (b ++ ("</w:tr>").toList) := by
    simp
  have hdrop : (("<w:tr").toList ++ (a ++ (tableMarkerStr k ++ (b ++ ("</w:tr>").toList)))).drop
      ((5 + a.length) + (8 + k.length)) = b ++ ("</w:tr>").toList := by
    rw [hgroupD]
    refine List.drop_left' ?_
    simp only [List.length_append, h5, tableMarkerStr_length]
    omega
  rw [htake, hdrop]
  simp

/-- The schematic document for a table marker located inside one row:
`pre <w:tr a {table:k} b </w:tr> post`. -/
def rowDoc (pre a k b post : Str) : Str :=
  pre ++ (("<w:tr").toList ++ (a ++ (tableMarkerStr k ++ (b ++ (("</w:tr>").toList ++ post)))))

/-- A literal marker occurrence with a word key is a marker match. -/
lemma tableAt_of_marker_isPrefixOf {k t : Str} (hk : wordKeyB k = true)
    (h : (tableMarkerStr k).isPrefixOf t = true) : tableAt t = some k := by
  obtain ⟨rest, hrest⟩ := List.isPrefixOf_iff_prefix.mp h
  rw [← hrest, tableMarkerStr_append]
  exact tagKeyAfter_append _ hk

/-- The marker match of a schematic row document sits right after `pre <w:tr a`. -/
lemma rowDoc_tableAt (pre a k b post : Str) (hk : wordKeyB k = true) :
    tableAt ((rowDoc pre a k b post).drop (pre.length + (5 + a.length))) = some k := by
  have h5 : (("<w:tr").toList).length = 5 := rfl
  have hgroup1 : rowDoc pre a k b post
      = (pre ++ (("<w:tr").toList ++ a))
        ++ (tableMarkerStr k ++ (b ++ (("</w:tr>").toList ++ post))) := by
    simp [rowDoc]
  rw [hgroup1, List.drop_left' (by simp only [List.length_append, h5]), tableMarkerStr_append]
  exact tagKeyAfter_append _ hk

/-- Extend the bounded no-other-match hypothesis beyond the document length. -/
lemma rowDoc_tableAt_none (pre a k b post : Str)
    (huniq : ∀ j < (rowDoc pre a k b post).length, j ≠ pre.length + (5 + a.length) →
        tableAt ((rowDoc pre a k b post).drop j) = none) :
    ∀ j, j ≠ pre.length + (5 + a.length) → tableAt ((rowDoc pre a k b post).drop j) = none := by
  intro j hj
  by_cases hlt : j < (rowDoc pre a k b post).length
  · exact huniq j hlt hj
  · rw [drop_oob (by omega), tableAt_nil]

/-- A schematic row document with no other marker match scans to its one match. -/
lemma rowDoc_scan (pre a k b post : Str) (hk : wordKeyB k = true)
    (huniq : ∀ j < (rowDoc pre a k b post).length, j ≠ pre.length + (5 + a.length) →
        tableAt ((rowDoc pre a k b post).drop j) = none) :
    scanTableMatches (rowDoc pre a k b post) = [(pre.length + (5 + a.length), k)] := by
  unfold scanTableMatches
  have := scanTableAux_unique ((rowDoc pre a k b post).length + 1) (rowDoc pre a k b post)
    0 (pre.length + (5 + a.length)) k (by omega) (rowDoc_tableAt pre a k b post hk)
    (rowDoc_tableAt_none pre a k b post huniq)
  simpa using this

end DocxTemplater

namespace DocxTemplater

/-! ### Infrastructure for the run-normalization proof -/

lemma jsSubstring_append (full : Str) (p q r : Nat) (hpq : p ≤ q) (hqr : q ≤ r) :
    jsSubstring full p q ++ jsSubstring full q r = jsSubstring full p r := by
  unfold jsSubstring
  rw [show r - p = (q - p) + (r - q) by omega, List.take_add, List.drop_drop,
    show p + (q - p) = q by omega]

lemma jsSubstring_self (full : Str) (p : Nat) : jsSubstring full p p = [] := by
  unfold jsSubstring
  simp

lemma jsSubstring_drop (s : Str) (m p q : Nat) :
    jsSubstring (s.drop m) p q = jsSubstring s (m + p) (m + q) := by
  unfold jsSubstring
  rw [List.drop_drop]
  congr 1
  omega

lemma withOffsets_map_snd (frags : List Str) (off : Nat) :
    (withOffsets frags off).map Prod.snd = frags := by
  induction frags generalizing off with
  | nil => rfl
  | cons t ts ih => simp [withOffsets, ih]

lemma withOffsets_ge (frags : List Str) (off : Nat) :
    ∀ e ∈ withOffsets frags off, off ≤ e.1 := by
  induction frags generalizing off with
  | nil => intro e he; simp [withOffsets] at he
  | cons t ts ih =>
      intro e he
      simp only [withOffsets, List.mem_cons] at he
      rcases he with rfl | he
      · exact Nat.le_refl _
      · have := ih (off + t.length) e he
        omega

lemma withOffsets_decomp (frags : List Str) (off st : Nat) (t : Str)
    (h : (st, t) ∈ withOffsets frags off) :
    ∃ x y, joinStr frags = x ++ (t ++ y) ∧ off + x.length = st := by
  induction frags generalizing off with
  | nil => simp [withOffsets] at h
  | cons t0 ts ih =>
      simp only [withOffsets, List.mem_cons, Prod.mk.injEq] at h
      rcases h with ⟨rfl, rfl⟩ | h
      · exact ⟨[], joinStr ts, rfl, by simp⟩
      · obtain ⟨x, y, hj, hx⟩ := ih (off + t0.length) h
        exact ⟨t0 ++ x, y, by simp [joinStr, hj], by simp at hx ⊢; omega⟩

lemma withOffsets_separated (frags : List Str) (off : Nat) (e1 e2 : Nat × Str)
    (h1 : e1 ∈ withOffsets frags off) (h2 : e2 ∈ withOffsets frags off) :
    e1 = e2 ∨ e1.1 + e1.2.length ≤ e2.1 ∨ e2.1 + e2.2.length ≤ e1.1 := by
  induction frags generalizing off with
  | nil => simp [withOffsets] at h1
  | cons t0 ts ih =>
      simp only [withOffsets, List.mem_cons] at h1 h2
      rcases h1 with rfl | h1 <;> rcases h2 with rfl | h2
      · exact Or.inl rfl
      · have := withOffsets_ge ts (off + t0.length) e2 h2
        right; left; simp; omega
      · have := withOffsets_ge ts (off + t0.length) e1 h1
        right; right; simp; omega
      · exact ih (off + t0.length) h1 h2

/-- Well-formedness of a span produced by scanning `s` with base offset `i`:
it starts at or after the base, its bounds agree with its text, its text is
non-empty, and its text is the corresponding substring of `s`. -/
def SpanWF (s : Str) (i : Nat) (sp : Span) : Prop :=
  i ≤ sp.start ∧ sp.stop = sp.start + sp.text.length ∧ sp.text ≠ []
    ∧ jsSubstring s (sp.start - i) (sp.stop - i) = sp.text

lemma spanWF_of_drop (s : Str) (m i : Nat) {sp : Span} (him : i + m ≤ sp.start)
    (h : SpanWF (s.drop m) (i + m) sp) : SpanWF s i sp := by
  obtain ⟨h1, h2, h3, h4⟩ := h
  refine ⟨by omega, h2, h3, ?_⟩
  rw [jsSubstring_drop] at h4
  rw [show sp.start - i = m + (sp.start - (i + m)) by omega,
    show sp.stop - i = m + (sp.stop - (i + m)) by omega]
  exact h4

lemma scanSpansAux_cons_not_brace {f : Nat} {c : Char} {rest : Str} {i : Nat}
    (h : ¬c = '\x7b') :
    scanSpansAux (f + 1) (c :: rest) i = scanSpansAux f rest (i + 1) := by
  simp [scanSpansAux, h]

lemma scanSpansAux_cons_brace_nomatch {f : Nat} {rest : Str} {i : Nat}
    (h : ¬(rest.takeWhile (fun d => d ≠ '\x7d') ≠ []
        ∧ (rest.drop (rest.takeWhile (fun d => d ≠ '\x7d')).length).head? = some '\x7d')) :
    scanSpansAux (f + 1) ('\x7b' :: rest) i = scanSpansAux f rest (i + 1) := by
  simp only [scanSpansAux, if_pos rfl, if_neg h]
  rfl

lemma scanSpansAux_cons_brace_match {f : Nat} {rest : Str} {i : Nat}
    (hb : rest.takeWhile (fun d => d ≠ '\x7d') ≠ [])
    (hh : (rest.drop (rest.takeWhile (fun d => d ≠ '\x7d')).length).head? = some '\x7d') :
    scanSpansAux (f + 1) ('\x7b' :: rest) i
      = { start := i, stop := i + (rest.takeWhile (fun d => d ≠ '\x7d')).length + 2,
            text := '\x7b' :: rest.takeWhile (fun d => d ≠ '\x7d') ++ ("\x7d").toList }
        :: scanSpansAux f (rest.drop ((rest.takeWhile (fun d => d ≠ '\x7d')).length + 1))
            (i + (rest.takeWhile (fun d => d ≠ '\x7d')).length + 2) := by
  simp only [scanSpansAux, if_pos rfl, if_pos (And.intro hb hh)]
  rfl

/-- The matched run and its closing brace decompose the rest of the text. -/
lemma brace_body_decomp (rest : Str)
    (hh : (rest.drop (rest.takeWhile (fun d => d ≠ '\x7d')).length).head? = some '\x7d') :
    ∃ r2, rest = rest.takeWhile (fun d => d ≠ '\x7d') ++ '\x7d' :: r2 := by
  have hsplit : rest.takeWhile (fun d => d ≠ '\x7d') ++ rest.dropWhile (fun d => d ≠ '\x7d')
      = rest := List.takeWhile_append_dropWhile _ _
  have hdrop : rest.drop (rest.takeWhile (fun d => d ≠ '\x7d')).length
      = rest.dropWhile (fun d => d ≠ '\x7d') := by
    nth_rewrite 2 [← hsplit]
    rw [List.drop_left]
  rw [hdrop] at hh
  cases hdw : rest.dropWhile (fun d => d ≠ '\x7d') with
  | nil => rw [hdw] at hh; simp at hh
  | cons a r2 =>
      rw [hdw] at hh
      simp only [List.head?_cons, Option.some.injEq] at hh
      subst hh
      exact ⟨r2, by rw [← hdw]; exact hsplit.symm⟩

lemma scanSpansAux_wf (fuel : Nat) (s : Str) (i : Nat) (hfuel : s.length < fuel) :
    ∀ sp ∈ scanSpansAux fuel s i, SpanWF s i sp := by
  induction fuel generalizing s i with
  | zero => intro sp hsp; cases s <;> simp [scanSpansAux] at hsp
  | succ f ih =>
      intro sp hsp
      cases s with
      | nil => simp [scanSpansAux] at hsp
      | cons c rest =>
          by_cases hc : c = '\x7b'
          case neg =>
            rw [scanSpansAux_cons_not_brace hc] at hsp
            have hwf := ih rest (i + 1) (by simp at hfuel ⊢; omega) sp hsp
            exact spanWF_of_drop (c :: rest) 1 i hwf.1 hwf
          case pos =>
          subst hc
          by_cases hcond : rest.takeWhile (fun d => d ≠ '\x7d') ≠ []
              ∧ (rest.drop (rest.takeWhile (fun d => d ≠ '\x7d')).length).head? = some '\x7d'
          case neg =>
            rw [scanSpansAux_cons_brace_nomatch hcond] at hsp
            have hwf := ih rest (i + 1) (by simp at hfuel ⊢; omega) sp hsp
            exact spanWF_of_drop ('\x7b' :: rest) 1 i hwf.1 hwf
          case pos =>
          obtain ⟨hb, hh⟩ := hcond
          rw [scanSpansAux_cons_brace_match hb hh] at hsp
          obtain ⟨r2, hrest⟩ := brace_body_decomp rest hh
          rcases List.mem_cons.mp hsp with rfl | htail
          · refine ⟨Nat.le_refl _, by simp; omega, by simp, ?_⟩
            have h1 : (('\x7b' :: rest).drop (i - i)).take
                ((i + (rest.takeWhile (fun d => d ≠ '\x7d')).length + 2 - i) - (i - i))
                = ('\x7b' :: rest).take ((rest.takeWhile (fun d => d ≠ '\x7d')).length + 2) := by
              rw [Nat.sub_self]
              simp only [List.drop_zero, Nat.sub_zero]
              congr 1
              omega
            show jsSubstring _ _ _ = _
            unfold jsSubstring
            rw [h1, show (rest.takeWhile (fun d => d ≠ '\x7d')).length + 2
                = ((rest.takeWhile (fun d => d ≠ '\x7d')).length + 1) + 1 by omega,
              List.take_succ_cons]
            congr 1
            nth_rewrite 2 [hrest]
            rw [List.take_append 1]
            simp
          · have hlen : (rest.drop ((rest.takeWhile (fun d => d ≠ '\x7d')).length + 1)).length
                < f := by
              have h1 : 1 ≤ (rest.takeWhile (fun d => d ≠ '\x7d')).length := by
                cases hcw : rest.takeWhile (fun d => d ≠ '\x7d') with
                | nil => exact absurd hcw hb
                | cons _ _ => simp
              simp only [List.length_drop] at *
              simp at hfuel
              omega
            have hwf := ih (rest.drop ((rest.takeWhile (fun d => d ≠ '\x7d')).length + 1))
              (i + (rest.takeWhile (fun d => d ≠ '\x7d')).length + 2) hlen sp htail
            have hdropeq : rest.drop ((rest.takeWhile (fun d => d ≠ '\x7d')).length + 1)
                = ('\x7b' :: rest).drop ((rest.takeWhile (fun d => d ≠ '\x7d')).length + 2) := by
              rw [show (rest.takeWhile (fun d => d ≠ '\x7d')).length + 2
                  = ((rest.takeWhile (fun d => d ≠ '\x7d')).length + 1) + 1 by omega,
                List.drop_succ_cons]
            have hbase : i + (rest.takeWhile (fun d => d ≠ '\x7d')).length + 2
                = i + ((rest.takeWhile (fun d => d ≠ '\x7d')).length + 2) := by omega
            rw [hdropeq, hbase] at hwf
            exact spanWF_of_drop ('\x7b' :: rest)
              ((rest.takeWhile (fun d => d ≠ '\x7d')).length + 2) i hwf.1 hwf

lemma scanSpansAux_pairwise (fuel : Nat) (s : Str) (i : Nat) (hfuel : s.length < fuel) :
    (scanSpansAux fuel s i).Pairwise (fun a b => a.stop ≤ b.start) := by
  induction fuel generalizing s i with
  | zero => cases s <;> simp [scanSpansAux]
  | succ f ih =>
      cases s with
      | nil => simp [scanSpansAux]
      | cons c rest =>
          by_cases hc : c = '\x7b'
          case neg =>
            rw [scanSpansAux_cons_not_brace hc]
            exact ih rest (i + 1) (by simp at hfuel ⊢; omega)
          case pos =>
          subst hc
          by_cases hcond : rest.takeWhile (fun d => d ≠ '\x7d') ≠ []
              ∧ (rest.drop (rest.takeWhile (fun d => d ≠ '\x7d')).length).head? = some '\x7d'
          case neg =>
            rw [scanSpansAux_cons_brace_nomatch hcond]
            exact ih rest (i + 1) (by simp at hfuel ⊢; omega)
          case pos =>
          obtain ⟨hb, hh⟩ := hcond
          rw [scanSpansAux_cons_brace_match hb hh]
          have hlen : (rest.drop ((rest.takeWhile (fun d => d ≠ '\x7d')).length + 1)).length
              < f := by
            have h1 : 1 ≤ (rest.takeWhile (fun d => d ≠ '\x7d')).length := by
              cases hcw : rest.takeWhile (fun d => d ≠ '\x7d') with
              | nil => exact absurd hcw hb
              | cons _ _ => simp
            simp only [List.length_drop] at *
            simp at hfuel
            omega
          rw [List.pairwise_cons]
          constructor
          · intro sp' hsp'
            have := (scanSpansAux_wf f _ _ hlen sp' hsp').1
            simpa using this
          · exact ih _ _ hlen

/-- All spans of the concatenated text are well-formed with base 0. -/
lemma scanSpans_wf (s : Str) : ∀ sp ∈ scanSpans s,
    sp.stop = sp.start + sp.text.length ∧ sp.text ≠ []
      ∧ jsSubstring s sp.start sp.stop = sp.text := by
  intro sp hsp
  have h := scanSpansAux_wf (s.length + 1) s 0 (by omega) sp hsp
  obtain ⟨h1, h2, h3, h4⟩ := h
  simp only [Nat.sub_zero] at h4
  exact ⟨h2, h3, h4⟩

lemma scanSpans_pairwise (s : Str) :
    (scanSpans s).Pairwise (fun a b => a.stop ≤ b.start) :=
  scanSpansAux_pairwise (s.length + 1) s 0 (by omega)

lemma insertByStart_of_le (sp : Span) (l : List Span) (h : ∀ x ∈ l, sp.start ≤ x.start) :
    insertByStart sp l = sp :: l := by
  cases l with
  | nil => rfl
  | cons x xs => simp [insertByStart, h x (List.mem_cons_self x xs)]

lemma sortByStart_eq_self (l : List Span)
    (h : l.Pairwise (fun a b => a.start ≤ b.start)) : sortByStart l = l := by
  induction l with
  | nil => rfl
  | cons x xs ih =>
      rw [List.pairwise_cons] at h
      unfold sortByStart
      rw [ih h.2]
      exact insertByStart_of_le x xs h.1

/-- The fold of `rebuildContent`, with the invariant that the accumulated
content is the substring from the fragment start to the cursor: sorted,
disjoint spans contained in the fragment reconstruct the fragment exactly. -/
lemma rebuild_go (full : Str) (elStart elEnd : Nat) (sps : List Span) (cur : Nat)
    (hwf : ∀ sp ∈ sps, sp.stop = sp.start + sp.text.length ∧ sp.text ≠ []
        ∧ jsSubstring full sp.start sp.stop = sp.text)
    (hin : ∀ sp ∈ sps, elStart ≤ sp.start ∧ sp.stop ≤ elEnd)
    (hchain : sps.Pairwise (fun a b => a.stop ≤ b.start))
    (hcur1 : elStart ≤ cur) (hcur2 : cur ≤ elEnd)
    (hge : ∀ sp ∈ sps, cur ≤ sp.start) :
    (fun r : Str × Nat => if r.2 < elEnd then r.1 ++ jsSubstring full r.2 elEnd else r.1)
        (sps.foldl (rebuildStep full elStart elEnd) (jsSubstring full elStart cur, cur))
      = jsSubstring full elStart elEnd := by
  induction sps generalizing cur with
  | nil =>
      simp only [List.foldl_nil]
      by_cases h : cur < elEnd
      · simp only [if_pos h]
        exact jsSubstring_append full elStart cur elEnd hcur1 hcur2
      · have hce : cur = elEnd := by omega
        subst hce
        simp
  | cons sp rest ih =>
      obtain ⟨hw1, hw2, hw3⟩ := hwf sp (List.mem_cons_self ..)
      obtain ⟨hi1, hi2⟩ := hin sp (List.mem_cons_self ..)
      have hcs : cur ≤ sp.start := hge sp (List.mem_cons_self ..)
      have hlen1 : 1 ≤ sp.text.length := by
        cases ht : sp.text with
        | nil => exact absurd ht hw2
        | cons _ _ => simp
      have hstep : rebuildStep full elStart elEnd (jsSubstring full elStart cur, cur) sp
          = (jsSubstring full elStart sp.stop, sp.stop) := by
        unfold rebuildStep
        simp only
        rw [max_eq_left hcur1, min_eq_left (by omega : sp.start ≤ elEnd),
          max_eq_right (by omega : cur ≤ sp.stop),
          if_pos (And.intro hi1 (by omega : sp.start < elEnd))]
        by_cases hcsp : cur < sp.start
        · rw [if_pos hcsp,
            jsSubstring_append full elStart cur sp.start hcur1 (by omega), ← hw3,
            jsSubstring_append full elStart sp.start sp.stop hi1 (by omega)]
        · rw [if_neg hcsp, ← hw3,
            show cur = sp.start by omega,
            jsSubstring_append full elStart sp.start sp.stop hi1 (by omega)]
      rw [List.foldl_cons, hstep]
      exact ih sp.stop (fun x hx => hwf x (List.mem_cons_of_mem _ hx))
        (fun x hx => hin x (List.mem_cons_of_mem _ hx))
        ((List.pairwise_cons.mp hchain).2) (by omega) hi2
        (fun x hx => (List.pairwise_cons.mp hchain).1 x hx)

/-- `rebuildContent` on sorted, disjoint spans contained in the fragment
reproduces the fragment's substring of the full text. -/
lemma rebuildContent_contained (full : Str) (elStart elEnd : Nat) (sps : List Span)
    (hwf : ∀ sp ∈ sps, sp.stop = sp.start + sp.text.length ∧ sp.text ≠ []
        ∧ jsSubstring full sp.start sp.stop = sp.text)
    (hin : ∀ sp ∈ sps, elStart ≤ sp.start ∧ sp.stop ≤ elEnd)
    (hchain : sps.Pairwise (fun a b => a.stop ≤ b.start))
    (hse : elStart ≤ elEnd) :
    rebuildContent full elStart elEnd sps = jsSubstring full elStart elEnd := by
  have h := rebuild_go full elStart elEnd sps elStart hwf hin hchain (Nat.le_refl _) hse
    (fun sp hsp => (hin sp hsp).1)
  rw [jsSubstring_self] at h
  exact h

/-! ### Claim C1: loop expansion equals the spec's reference definition -/

/-- C1: for every data value bound to the loop key and every loop body, the
code's loop-construct expansion equals the reference definition: absent, null,
non-list, or empty-list keys expand to the empty string with exactly one
warning; otherwise the non-null items each contribute one field-substituted
copy of the body, concatenated in order with no separator. -/
theorem loop_expansion_matches_reference (v : Option Value) (inner : Str) :
    expandLoopConstruct v inner = loopConstructRef v inner := by
  cases v with
  | none => rfl
  | some val =>
    cases val with
    | vNull => rfl
    | vBool b => cases b <;> rfl
    | vNum n =>
        by_cases h : n = 0
        · subst h; rfl
        · simp [expandLoopConstruct, loopConstructRef, jsToBool, bne, h]
    | vStr s => cases s <;> rfl
    | vList items =>
        cases hl : items.toList with
        | nil => simp [expandLoopConstruct, loopConstructRef, jsToBool, hl]
        | cons a as => simp [expandLoopConstruct, loopConstructRef, jsToBool, hl]
    | vImage d => rfl
    | vObj fields => rfl

/-! ### Claim C2: the conditional truthiness table -/

/-- C2: conditional expansion yields the if-branch exactly when the value is
not in the spec's falsy table (boolean false, `"false"`, `"0"`, `""`, null,
absent, the empty list, and the number 0), and the end-to-end scenario
`{?flag}YES{:else}NO{/flag}` with `flag` the number `0` yields `NO`. -/
theorem conditional_truthiness_table :
    (∀ (v : Option Value) (a b : Str),
        expandCondConstruct v a b = if specFalsyCond v then b else a)
      ∧ condPass [(("flag").toList, Value.vNum 0)]
          (("\x7b?flag\x7dYES\x7b:else\x7dNO\x7b/flag\x7d").toList) = ("NO").toList := by
  constructor
  · intro v a b
    cases v with
    | none => rfl
    | some val =>
      cases val with
      | vNull => rfl
      | vBool bb => cases bb <;> rfl
      | vNum n =>
          by_cases h : n = 0
          · subst h; rfl
          · simp [expandCondConstruct, condTruthy, specFalsyCond, jsToBool, bne, h]
      | vStr s =>
          by_cases h1 : s = ['f', 'a', 'l', 's', 'e']
          · subst h1; rfl
          · by_cases h2 : s = ['0']
            · subst h2; rfl
            · by_cases h3 : s = []
              · subst h3; rfl
              · simp [expandCondConstruct, condTruthy, specFalsyCond, jsToBool, h1, h2,
                  List.isEmpty_iff, h3]
      | vList items =>
          cases hl : items.toList with
          | nil => simp [expandCondConstruct, condTruthy, specFalsyCond, jsToBool, hl]
          | cons a as => simp [expandCondConstruct, condTruthy, specFalsyCond, jsToBool, hl]
      | vImage d => rfl
      | vObj fields => rfl
  · decide

/-! ### Claim C9: run normalization is the identity on normalized input -/

/-- C9: on a fragment sequence in which every placeholder-shaped span of the
concatenated text lies entirely inside one fragment, the normalization pass
leaves every fragment's content unchanged, and a second pass is therefore
byte-identical. -/
theorem normalization_identity_on_normalized (frags : List Str)
    (hno : ∀ sp ∈ scanSpans (joinStr frags), ∃ el ∈ withOffsets frags 0,
        el.1 ≤ sp.start ∧ sp.stop ≤ el.1 + el.2.length) :
    normalizeDocxText frags = frags
      ∧ normalizeDocxText (normalizeDocxText frags) = frags := by
  have hwfall := scanSpans_wf (joinStr frags)
  have hpw := scanSpans_pairwise (joinStr frags)
  have hel : ∀ el ∈ withOffsets frags 0,
      normalizeElement (joinStr frags) (scanSpans (joinStr frags)) el = Prod.snd el := by
    intro el hel0
    obtain ⟨st, t⟩ := el
    unfold normalizeElement
    have hfpw : ((scanSpans (joinStr frags)).filter (overlapB st t.length)).Pairwise
        (fun a b => a.stop ≤ b.start) := hpw.filter _
    have hfsorted : ((scanSpans (joinStr frags)).filter (overlapB st t.length)).Pairwise
        (fun a b => a.start ≤ b.start) := by
      refine List.Pairwise.imp_of_mem ?_ hfpw
      intro a b ha hb hab
      have h1 := (hwfall a (List.mem_of_mem_filter ha)).1
      omega
    rw [sortByStart_eq_self _ hfsorted]
    by_cases hE : ((scanSpans (joinStr frags)).filter (overlapB st t.length)).isEmpty
    · rw [if_pos hE]
    · rw [if_neg hE]
      obtain ⟨x, y, hfull, hx⟩ := withOffsets_decomp frags 0 st t hel0
      have hst : st = x.length := by omega
      have hcont : ∀ sp ∈ (scanSpans (joinStr frags)).filter (overlapB st t.length),
          st ≤ sp.start ∧ sp.stop ≤ st + t.length := by
        intro sp hsp
        have hmem := List.mem_of_mem_filter hsp
        have hov : overlapB st t.length sp = true := List.of_mem_filter hsp
        have hov' : st < sp.stop ∧ sp.start < st + t.length := by
          simpa [overlapB, Bool.and_eq_true] using hov
        obtain ⟨el', hel', h1, h2⟩ := hno sp hmem
        rcases withOffsets_separated frags 0 (st, t) el' hel0 hel' with heq | hle | hle
        · rw [← heq] at h1 h2
          exact ⟨h1, by simpa using h2⟩
        · exfalso
          simp only at hle
          omega
        · exfalso
          simp only at hle
          omega
      have hwfF : ∀ sp ∈ (scanSpans (joinStr frags)).filter (overlapB st t.length),
          sp.stop = sp.start + sp.text.length ∧ sp.text ≠ []
            ∧ jsSubstring (joinStr frags) sp.start sp.stop = sp.text :=
        fun sp hsp => hwfall sp (List.mem_of_mem_filter hsp)
      rw [rebuildContent_contained _ _ _ _ hwfF hcont hfpw (by omega)]
      rw [hfull, hst]
      unfold jsSubstring
      rw [List.drop_left, show x.length + t.length - x.length = t.length by omega]
      exact List.take_left t y
  have hmain : normalizeDocxText frags = frags := by
    unfold normalizeDocxText
    rw [List.map_congr_left hel, withOffsets_map_snd]
  exact ⟨hmain, by rw [hmain, hmain]⟩

/-- C9 witness: two fragments, each containing its placeholders whole, are left
byte-identical. -/
theorem normalization_identity_witness :
    (∀ sp ∈ scanSpans (joinStr [("Hello \x7bname\x7d x").toList, ("\x7bfoo\x7d bar").toList]),
        ∃ el ∈ withOffsets [("Hello \x7bname\x7d x").toList, ("\x7bfoo\x7d bar").toList] 0,
          el.1 ≤ sp.start ∧ sp.stop ≤ el.1 + el.2.length)
      ∧ normalizeDocxText [("Hello \x7bname\x7d x").toList, ("\x7bfoo\x7d bar").toList]
          = [("Hello \x7bname\x7d x").toList, ("\x7bfoo\x7d bar").toList] := by
  refine ⟨by decide, ?_⟩
  exact (normalization_identity_on_normalized _ (by decide)).1

/-! ### Claim C6: image relationship identifiers -/

/-- A data tree holding a single image. -/
def c6Data : DataTree := [(("img").toList, .vImage ⟨[], ("png").toList, none, none⟩)]

/-- A relationship part that already declares the id `rId100` (numeric part 100);
the source never inspects the existing ids. -/
def c6Existing : List Nat := [100]

/-- C6 counterexample: the counter is seeded at the constant 100 regardless of
the ids already present, so with `rId100` pre-existing the first embedded image
is assigned the very same id — the assigned ids are not disjoint from the
pre-existing ones, contradicting the claim. -/
theorem relid_seed_collision_counterexample :
    newRelIds c6Data = [100] ∧ 100 ∈ c6Existing
      ∧ ¬ List.Disjoint (newRelIds c6Data) c6Existing := by
  refine ⟨rfl, by decide, fun h => ?_⟩
  exact h (show 100 ∈ newRelIds c6Data by decide) (show 100 ∈ c6Existing by decide)

/-- C6 amended: the relationship-id counter is seeded at the fixed constant 100
(not above the ids already used by the document); the newly assigned ids are
pairwise distinct and of the form 100, 101, …, and they avoid the pre-existing
ids whenever every pre-existing numeric id is below 100. -/
theorem relid_fresh_when_existing_below_seed (data : DataTree) (existing : List Nat)
    (h : ∀ e ∈ existing, e < 100) :
    (newRelIds data).Nodup ∧ ∀ i ∈ newRelIds data, i ∉ existing := by
  constructor
  · exact (List.nodup_range _).map fun a b hab => by omega
  · intro i hi hmem
    rcases List.mem_map.mp hi with ⟨j, _, rfl⟩
    have := h _ hmem
    omega

/-- C6 witness: two images against a part whose only numeric id is 5. -/
theorem relid_fresh_witness :
    (∀ e ∈ [5], e < 100)
      ∧ ((newRelIds [(("a").toList, Value.vImage ⟨[], ("png").toList, none, none⟩),
            (("b").toList, Value.vImage ⟨[], ("jpg").toList, none, none⟩)]).Nodup
          ∧ ∀ i ∈ newRelIds [(("a").toList, Value.vImage ⟨[], ("png").toList, none, none⟩),
            (("b").toList, Value.vImage ⟨[], ("jpg").toList, none, none⟩)], i ∉ [5]) :=
  ⟨by decide, relid_fresh_when_existing_below_seed _ _ (by decide)⟩

/-! ### Claim C7: image layout arithmetic -/

/-- C7: with sniffed pixels (1000, 500) and only `widthInches = 4`, the emitted
size is `4·914400 × 2·914400` EMU; with both `widthInches = 4` and
`heightInches = 3`, it is exactly `4·914400 × 3·914400` regardless of the
sniffed pixels; and in every case the emitted pair is the rounding of the exact
computed dimensions to whole EMU. -/
theorem image_layout_arithmetic :
    (∀ buf ext, createImageXMLEmitted 1000 500 ⟨buf, ext, some 4, none⟩ = (3657600, 1828800))
      ∧ (∀ (w h : ℚ) (buf : List Nat) (ext : Str),
          createImageXMLEmitted w h ⟨buf, ext, some 4, some 3⟩ = (3657600, 2743200))
      ∧ ∀ (w h : ℚ) (img : ImageDescr), createImageXMLEmitted w h img
          = (jsRound (createImageXMLDims w h img).1, jsRound (createImageXMLDims w h img).2) := by
  refine ⟨fun buf ext => ?_, fun w h buf ext => ?_, fun w h img => rfl⟩
  · show (jsRound ((4 : ℚ) * 914400), jsRound ((4 : ℚ) * 914400 * (500 / 1000))) = _
    norm_num [jsRound]
  · show (jsRound ((4 : ℚ) * 914400), jsRound ((3 : ℚ) * 914400)) = _
    norm_num [jsRound]

/-! ### Claim C8: the sniffer is total with a fixed fallback -/

/-- C8: the dimension sniffer returns a pair on every byte sequence (it is a
total function of the bytes, tolerating truncated and malformed input), and any
input whose leading bytes match none of the PNG, JPEG, or GIF signatures yields
the fixed fallback (100, 100). -/
theorem getImageSize_total_and_fallback :
    (∀ bytes, ∃ wh : Int × Int, getImageSize bytes = wh)
      ∧ ∀ bytes, pngSigB bytes = false → jpegSigB bytes = false → gifSigB bytes = false →
          getImageSize bytes = (100, 100) := by
  refine ⟨fun bytes => ⟨_, rfl⟩, fun bytes hp hj hg => ?_⟩
  simp [getImageSize, hp, hj, hg]

/-- C8 witness: the single byte `0x00` matches no signature and sniffs to the
fallback size. -/
theorem getImageSize_fallback_witness :
    pngSigB [0] = false ∧ jpegSigB [0] = false ∧ gifSigB [0] = false
      ∧ getImageSize [0] = (100, 100) :=
  ⟨rfl, rfl, rfl, getImageSize_total_and_fallback.2 [0] rfl rfl rfl⟩

/-! ### Claim C3: table expansion on a single marked row -/

/-- C3 (amended): for a document `pre <w:tr a {table:k} b </w:tr> post` whose
only marker match is the one shown, whose row boundaries around the marker are
the ones shown, and whose key holds a non-empty list of non-null items, the
table pass replaces the entire row region with one instance per item in list
order — each instance the row template with the marker text removed and every
`{field}` substituted from that item — with no warning. The marker text itself
no longer occurs in the instance template, though substituted field values may
reintroduce it into the output (see the counterexample). -/
theorem table_row_expansion (data : DataTree) (pre a k b post : Str) (items : List Value)
    (hk : wordKeyB k = true)
    (hlist : lookupList data k = some items)
    (hnn : ∀ it ∈ items, isNullV it = false)
    (huniq : ∀ j < (rowDoc pre a k b post).length, j ≠ pre.length + (5 + a.length) →
        tableAt ((rowDoc pre a k b post).drop j) = none)
    (hrow1 : ∀ j ≤ pre.length + (5 + a.length), pre.length < j →
        (("<w:tr").toList).isPrefixOf ((rowDoc pre a k b post).drop j) = false)
    (hrow2 : ∀ j < pre.length + (5 + a.length) + (8 + k.length) + b.length,
        pre.length + (5 + a.length) ≤ j →
        (("</w:tr>").toList).isPrefixOf ((rowDoc pre a k b post).drop j) = false) :
    tablePass data (rowDoc pre a k b post)
      = (pre ++ (joinStr (items.map fun it => substFields (fieldRepl it)
          (("<w:tr").toList ++ (a ++ (b ++ ("</w:tr>").toList)))) ++ post), 0) := by
  have h5 : (("<w:tr").toList).length = 5 := rfl
  have h7 : (("</w:tr>").toList).length = 7 := rfl
  have hmlen := tableMarkerStr_length k
  have hgroup1 : rowDoc pre a k b post
      = (pre ++ (("<w:tr").toList ++ a))
        ++ (tableMarkerStr k ++ (b ++ (("</w:tr>").toList ++ post))) := by
    simp [rowDoc]
  have hlen1 : (pre ++ (("<w:tr").toList ++ a)).length = pre.length + (5 + a.length) := by
    simp only [List.length_append, h5]
  have hdropm : (rowDoc pre a k b post).drop (pre.length + (5 + a.length))
      = tableMarkerStr k ++ (b ++ (("</w:tr>").toList ++ post)) := by
    rw [hgroup1, List.drop_left' hlen1]
  have huniq' := rowDoc_tableAt_none pre a k b post huniq
  have hscan := rowDoc_scan pre a k b post hk huniq
  have hp1 : (("<w:tr").toList).isPrefixOf ((rowDoc pre a k b post).drop pre.length)
      = true := by
    unfold rowDoc
    rw [List.drop_left]
    exact isPrefixOf_append_self _ _
  have hgroup2 : rowDoc pre a k b post
      = (pre ++ (("<w:tr").toList ++ (a ++ (tableMarkerStr k ++ b))))
        ++ (("</w:tr>").toList ++ post) := by
    simp [rowDoc]
  have hlen2 : (pre ++ (("<w:tr").toList ++ (a ++ (tableMarkerStr k ++ b)))).length
      = pre.length + (5 + a.length) + (8 + k.length) + b.length := by
    simp only [List.length_append, h5, hmlen]
    omega
  have hp2occ : (("</w:tr>").toList).isPrefixOf ((rowDoc pre a k b post).drop
      (pre.length + (5 + a.length) + (8 + k.length) + b.length)) = true := by
    rw [hgroup2, List.drop_left' hlen2]
    exact isPrefixOf_append_self _ _
  have hgroup3 : rowDoc pre a k b post
      = pre ++ ((("<w:tr").toList ++ (a ++ (tableMarkerStr k ++ (b ++ ("</w:tr>").toList))))
        ++ post) := by
    simp [rowDoc]
  have hrowlen : (("<w:tr").toList
      ++ (a ++ (tableMarkerStr k ++ (b ++ ("</w:tr>").toList)))).length
      = 5 + a.length + (8 + k.length) + b.length + 7 := by
    simp only [List.length_append, h5, h7, hmlen]
    omega
  have hsub : jsSubstring (rowDoc pre a k b post) pre.length
      (pre.length + (5 + a.length) + (8 + k.length) + b.length + 7)
      = ("<w:tr").toList ++ (a ++ (tableMarkerStr k ++ (b ++ ("</w:tr>").toList))) := by
    unfold jsSubstring
    rw [hgroup3, List.drop_left]
    rw [show pre.length + (5 + a.length) + (8 + k.length) + b.length + 7 - pre.length
        = 5 + a.length + (8 + k.length) + b.length + 7 by omega]
    exact List.take_left' hrowlen
  have hminT : ∀ j < 5 + a.length,
      tableAt ((("<w:tr").toList
        ++ (a ++ (tableMarkerStr k ++ (b ++ ("</w:tr>").toList)))).drop j) = none := by
    intro j hj
    cases hta : tableAt ((("<w:tr").toList
        ++ (a ++ (tableMarkerStr k ++ (b ++ ("</w:tr>").toList)))).drop j) with
    | none => rfl
    | some k' =>
        exfalso
        have hdocj : (rowDoc pre a k b post).drop (pre.length + j)
            = (("<w:tr").toList
              ++ (a ++ (tableMarkerStr k ++ (b ++ ("</w:tr>").toList)))).drop j ++ post := by
          rw [hgroup3, List.drop_append, List.drop_append_eq_append_drop,
            show j - (("<w:tr").toList
              ++ (a ++ (tableMarkerStr k ++ (b ++ ("</w:tr>").toList)))).length = 0 by
                rw [hrowlen]; omega]
          simp
        have hsome : tableAt ((rowDoc pre a k b post).drop (pre.length + j)) = some k' := by
          rw [hdocj]
          exact tableAt_append_of_some post hta
        have hnone := huniq' (pre.length + j) (by omega)
        rw [hsome] at hnone
        exact absurd hnone (by simp)
  have hrmv := removeFirst_rowTemplate a k b hk hminT
  have hfilter : items.filter (fun it => !isNullV it) = items :=
    List.filter_eq_self.mpr fun it hit => by rw [hnn it hit]; rfl
  have htake : (rowDoc pre a k b post).take pre.length = pre := by
    unfold rowDoc
    exact List.take_left' rfl
  have hdroppost : (rowDoc pre a k b post).drop
      (pre.length + (5 + a.length) + (8 + k.length) + b.length + 7) = post := by
    have hgroup4 : rowDoc pre a k b post
        = (pre ++ (("<w:tr").toList
          ++ (a ++ (tableMarkerStr k ++ (b ++ ("</w:tr>").toList))))) ++ post := by
      simp [rowDoc]
    rw [hgroup4]
    refine List.drop_left' ?_
    simp only [List.length_append, h5, h7, hmlen]
    omega
  unfold tablePass
  rw [hscan]
  simp only [List.foldl_cons, List.foldl_nil]
  rw [tableStep_splice data (rowDoc pre a k b post) 0 (pre.length + (5 + a.length))
    pre.length (pre.length + (5 + a.length) + (8 + k.length) + b.length) k items hlist
    hp1 (by omega) (fun j h1 h2 => hrow1 j h2 h1) hp2occ (by omega)
    (fun j h1 h2 => hrow2 j h2 h1)]
  rw [hsub, hrmv, hfilter, htake, hdroppost]
  simp

/-- A data tree whose single item carries the literal table marker as a field
value. -/
def c3CtrData : DataTree :=
  [(("items").toList, .vList (VList.ofList
    [.vObj (VFields.ofList [(("f").toList, .vStr (("\x7btable:items\x7d").toList))])]))]

/-- C3 counterexample: on `<w:tr>{table:items}{f}</w:tr>` with the item's field
`f` holding the string `{table:items}`, the expansion produces one row whose
substituted field text is the literal marker — the marker occurs once in the
output, not zero times as the claim states. -/
theorem table_marker_reappears_counterexample :
    (tablePass c3CtrData (("<w:tr>\x7btable:items\x7d\x7bf\x7d</w:tr>").toList)).1
        = ("<w:tr>\x7btable:items\x7d</w:tr>").toList
      ∧ countSubstr
          (tablePass c3CtrData (("<w:tr>\x7btable:items\x7d\x7bf\x7d</w:tr>").toList)).1
          (tableMarkerStr (("items").toList)) = 1 := by
  constructor
  · rfl
  · rfl

/-- C3 witness: `A<w:tr>{table:items}{n}</w:tr>B` with two items expands to two
substituted row instances in order. -/
theorem table_row_expansion_witness :
    (wordKeyB (("items").toList) = true)
      ∧ (lookupList [(("items").toList, .vList (VList.ofList
            [.vObj (VFields.ofList [(("n").toList, .vStr (("x").toList))]),
              .vObj (VFields.ofList [(("n").toList, .vStr (("y").toList))])]))]
          (("items").toList)
          = some [.vObj (VFields.ofList [(("n").toList, .vStr (("x").toList))]),
              .vObj (VFields.ofList [(("n").toList, .vStr (("y").toList))])])
      ∧ tablePass [(("items").toList, .vList (VList.ofList
            [.vObj (VFields.ofList [(("n").toList, .vStr (("x").toList))]),
              .vObj (VFields.ofList [(("n").toList, .vStr (("y").toList))])]))]
          (rowDoc (("A").toList) ((">").toList) (("items").toList)
            (("\x7bn\x7d").toList) (("B").toList))
        = (("A").toList ++ (joinStr
            ([.vObj (VFields.ofList [(("n").toList, .vStr (("x").toList))]),
              .vObj (VFields.ofList [(("n").toList, .vStr (("y").toList))])].map
              fun it => substFields (fieldRepl it)
                (("<w:tr").toList ++ ((">").toList
                  ++ ((("\x7bn\x7d").toList) ++ ("</w:tr>").toList))))
            ++ ("B").toList), 0) := by
  refine ⟨by decide, rfl, ?_⟩
  exact table_row_expansion _ _ _ _ _ _ _ (by decide) rfl (by decide) (by decide) (by decide)
    (by decide)

/-! ### Claim C4: table marker with missing/empty data -/

/-- C4 (amended): when the marker's key is missing, not a list, or an empty
list, the table pass removes the marker text and records one warning, but the
enclosing row is NOT deleted — the row remains in the output with only the
marker text excised. -/
theorem table_missing_key_keeps_row (data : DataTree) (pre a k b post : Str)
    (hk : wordKeyB k = true)
    (hnone : lookupList data k = none)
    (huniq : ∀ j < (rowDoc pre a k b post).length, j ≠ pre.length + (5 + a.length) →
        tableAt ((rowDoc pre a k b post).drop j) = none) :
    tablePass data (rowDoc pre a k b post)
      = (pre ++ (("<w:tr").toList ++ (a ++ (b ++ (("</w:tr>").toList ++ post)))), 1) := by
  have h5 : (("<w:tr").toList).length = 5 := rfl
  have hmlen := tableMarkerStr_length k
  have huniq' := rowDoc_tableAt_none pre a k b post huniq
  have hscan := rowDoc_scan pre a k b post hk huniq
  have hgroup1 : rowDoc pre a k b post
      = (pre ++ (("<w:tr").toList ++ a))
        ++ (tableMarkerStr k ++ (b ++ (("</w:tr>").toList ++ post))) := by
    simp [rowDoc]
  have hlen1 : (pre ++ (("<w:tr").toList ++ a)).length = pre.length + (5 + a.length) := by
    simp only [List.length_append, h5]
  have hmarkerlen : tableMarkerStr k ≠ [] := by
    intro hcon
    have := congrArg List.length hcon
    rw [hmlen] at this
    simp at this
  have hocc : (tableMarkerStr k).isPrefixOf
      ((rowDoc pre a k b post).drop (pre.length + (5 + a.length))) = true := by
    rw [hgroup1, List.drop_left' hlen1]
    exact isPrefixOf_append_self _ _
  have hmin : ∀ j < pre.length + (5 + a.length),
      (tableMarkerStr k).isPrefixOf ((rowDoc pre a k b post).drop j) = false := by
    intro j hj
    cases hpf : (tableMarkerStr k).isPrefixOf ((rowDoc pre a k b post).drop j) with
    | false => rfl
    | true =>
        exfalso
        have hsome := tableAt_of_marker_isPrefixOf hk hpf
        have hnone' := huniq' j (by omega)
        rw [hsome] at hnone'
        exact absurd hnone' (by simp)
  have hfind : findIdx (tableMarkerStr k) (rowDoc pre a k b post)
      = some (pre.length + (5 + a.length)) :=
    findIdx_eq_some_of _ _ _ hmarkerlen hocc hmin
  have hrepl : replaceFirst (rowDoc pre a k b post) (tableMarkerStr k) []
      = pre ++ (("<w:tr").toList ++ (a ++ (b ++ (("</w:tr>").toList ++ post)))) := by
    unfold replaceFirst
    rw [hfind]
    have htake : (rowDoc pre a k b post).take (pre.length + (5 + a.length))
        = pre ++ (("<w:tr").toList ++ a) := by
      rw [hgroup1]
      exact List.take_left' hlen1
    have hdrop : (rowDoc pre a k b post).drop
        (pre.length + (5 + a.length) + (tableMarkerStr k).length)
        = b ++ (("</w:tr>").toList ++ post) := by
      have hgroup2 : rowDoc pre a k b post
          = (pre ++ (("<w:tr").toList ++ (a ++ tableMarkerStr k)))
            ++ (b ++ (("</w:tr>").toList ++ post)) := by
        simp [rowDoc]
      rw [hgroup2]
      refine List.drop_left' ?_
      simp only [List.length_append, h5, hmlen]
      omega
    simp [htake, hdrop]
  unfold tablePass
  rw [hscan]
  simp only [List.foldl_cons, List.foldl_nil]
  simp [tableStep, hnone, hrepl]

/-- C4 counterexample: with key `k` absent, `<w:tr>X{table:k}Y</w:tr>` becomes
`<w:tr>XY</w:tr>` (with one warning) — the enclosing row survives, while the
claim says the row region is replaced with nothing. -/
theorem table_missing_key_row_survives_counterexample :
    tablePass [] (("<w:tr>X\x7btable:k\x7dY</w:tr>").toList)
        = ((("<w:tr>XY</w:tr>").toList : Str), 1)
      ∧ (("<w:tr>XY</w:tr>").toList : Str) ≠ [] := by
  constructor
  · rfl
  · decide

/-- C4 witness: `P<w:tr>X{table:k}Y</w:tr>Q` with empty data keeps the row. -/
theorem table_missing_key_keeps_row_witness :
    (wordKeyB (("k").toList) = true)
      ∧ (lookupList [] (("k").toList) = none)
      ∧ tablePass [] (rowDoc (("P").toList) ((">X").toList) (("k").toList)
            (("Y").toList) (("Q").toList))
        = (("P").toList ++ (("<w:tr").toList ++ ((">X").toList
            ++ ((("Y").toList) ++ (("</w:tr>").toList ++ ("Q").toList)))), 1) := by
  refine ⟨by decide, rfl, ?_⟩
  exact table_missing_key_keeps_row _ _ _ _ _ _ (by decide) rfl (by decide)

/-! ### Claim C10: later passes consume substituted text -/

/-- C10: each pass runs on the previous pass's output, so a loop-substituted
field value of the shape `{name}` is itself replaced by the simple-placeholder
pass against the outer data tree: for every data tree binding `items` to one
item whose field `f` is the string `{name}` and binding `name` to a string,
expanding `{#items}{f}{/items}` yields that string. -/
theorem substituted_token_expanded_by_later_pass (data : DataTree) (s : Str)
    (hitems : lookupStr data (("items").toList) = some (.vList (VList.ofList
      [.vObj (VFields.ofList [(("f").toList, .vStr (("\x7bname\x7d").toList))])])))
    (hname : lookupStr data (("name").toList) = some (.vStr s)) :
    expandText data (("\x7b#items\x7d\x7bf\x7d\x7b/items\x7d").toList) = s := by
  have h1 : (loopPass data (("\x7b#items\x7d\x7bf\x7d\x7b/items\x7d").toList)).1
      = (expandLoopConstruct (lookupStr data (("items").toList)) (("\x7bf\x7d").toList)).1
        ++ [] := rfl
  rw [hitems] at h1
  have h1' : (loopPass data (("\x7b#items\x7d\x7bf\x7d\x7b/items\x7d").toList)).1
      = ("\x7bname\x7d").toList := by rw [h1]; rfl
  have h2 : condPass data (("\x7bname\x7d").toList) = ("\x7bname\x7d").toList := rfl
  have h3 : (tablePass data (("\x7bname\x7d").toList)).1 = ("\x7bname\x7d").toList := rfl
  have h4 : simplePass data (("\x7bname\x7d").toList)
      = simpleReplace data (("name").toList) ++ [] := rfl
  have h5 : simpleReplace data (("name").toList) = s := by
    unfold simpleReplace
    rw [hname]
  unfold expandText
  rw [h1', h2, h3, h4, h5]
  exact List.append_nil s

/-- C10 witness: with `name` bound to `Amy`, the pipeline yields `Amy`. -/
theorem substituted_token_expanded_witness :
    (lookupStr [(("items").toList, .vList (VList.ofList
          [.vObj (VFields.ofList [(("f").toList, .vStr (("\x7bname\x7d").toList))])])),
        (("name").toList, .vStr (("Amy").toList))] (("items").toList)
        = some (.vList (VList.ofList
          [.vObj (VFields.ofList [(("f").toList, .vStr (("\x7bname\x7d").toList))])])))
      ∧ expandText [(("items").toList, .vList (VList.ofList
          [.vObj (VFields.ofList [(("f").toList, .vStr (("\x7bname\x7d").toList))])])),
        (("name").toList, .vStr (("Amy").toList))]
        (("\x7b#items\x7d\x7bf\x7d\x7b/items\x7d").toList) = ("Amy").toList := by
  refine ⟨rfl, ?_⟩
  exact substituted_token_expanded_by_later_pass _ _ rfl rfl

/-! ### Claim C5: several table markers and the boundary search -/

/-- The data and document of the stale-index counterexample: the first marker's
key is absent (its removal shortens the text by 21 characters), the second
marker's key holds one valid item. -/
def c5Data : DataTree := [(("b").toList, .vList (VList.ofList [.vObj VFields.fnil]))]

/-- `<w:tr>{table:averylongname}</w:tr><w:tr>{table:b}</w:tr><w:tr>Y</w:tr>`. -/
def c5Doc : Str :=
  ("<w:tr>\x7btable:averylongname\x7d</w:tr><w:tr>\x7btable:b\x7d</w:tr><w:tr>Y</w:tr>").toList

/-- C5 counterexample: the second marker is scanned at index 40 of the original
text, but after the first marker's removal the then-current text is 21
characters shorter; the boundary search around the stale index 40 selects the
third row `<w:tr>Y</w:tr>`, which is replaced by itself, so the valid marker
`{table:b}` survives in the output — its row is never expanded, contradicting
the claim that boundaries are located at the marker's position in the
already-rewritten text. -/
theorem table_stale_index_counterexample :
    scanTableMatches c5Doc = [(6, ("averylongname").toList), (40, ("b").toList)]
      ∧ (tablePass c5Data c5Doc).1
        = ("<w:tr></w:tr><w:tr>\x7btable:b\x7d</w:tr><w:tr>Y</w:tr>").toList
      ∧ countSubstr (tablePass c5Data c5Doc).1 (tableMarkerStr (("b").toList)) = 1 := by
  refine ⟨rfl, rfl, rfl⟩

/-- C5 (amended): markers are collected by one scan of the pre-pass text and
processed in that order, each against the then-current text; however, the
row-start and row-end boundaries for a marker are searched in the then-current
text around the marker's index in the pre-pass text. The boundaries actually
used are the last `<w:tr` occurrence at or before that stale index and the
first `</w:tr>` occurrence at or after it, in the current text — which is the
marker's own row only when the text before the marker kept its length. -/
theorem table_boundaries_around_scanned_index (data : DataTree) :
    (∀ s, tablePass data s = (scanTableMatches s).foldl (tableStep data) (s, 0))
      ∧ ∀ (s : Str) (warn mIdx p1 p2 : Nat) (k : Str) (items : List Value),
          lookupList data k = some items →
          (("<w:tr").toList).isPrefixOf (s.drop p1) = true → p1 ≤ mIdx →
          (∀ j, p1 < j → j ≤ mIdx → (("<w:tr").toList).isPrefixOf (s.drop j) = false) →
          (("</w:tr>").toList).isPrefixOf (s.drop p2) = true → mIdx ≤ p2 →
          (∀ j, mIdx ≤ j → j < p2 → (("</w:tr>").toList).isPrefixOf (s.drop j) = false) →
          tableStep data (s, warn) (mIdx, k)
            = (s.take p1 ++ joinStr ((items.filter fun it => !isNullV it).map
                fun it => substFields (fieldRepl it)
                  (removeFirstTableMarker (jsSubstring s p1 (p2 + 7))))
                ++ s.drop (p2 + 7), warn) := by
  refine ⟨fun s => rfl, ?_⟩
  intro s warn mIdx p1 p2 k items hlist hp1 hp1le hp1max hp2 hp2ge hp2min
  exact tableStep_splice data s warn mIdx p1 p2 k items hlist hp1 hp1le hp1max hp2 hp2ge hp2min

/-- C5 witness: a step against current text `<w:tr>A</w:tr>` with supplied
index 3 finds the boundaries 0 and 7 around that index. -/
theorem table_boundaries_around_scanned_index_witness :
    (lookupList [(("t").toList, Value.vList (VList.ofList [.vObj .fnil]))] (("t").toList)
        = some [.vObj .fnil])
      ∧ tableStep [(("t").toList, Value.vList (VList.ofList [.vObj .fnil]))]
          ((("<w:tr>A</w:tr>").toList), 0) (3, ("t").toList)
        = ((("<w:tr>A</w:tr>").toList).take 0
            ++ joinStr ((([Value.vObj .fnil].filter fun it => !isNullV it)).map
              fun it => substFields (fieldRepl it)
                (removeFirstTableMarker (jsSubstring (("<w:tr>A</w:tr>").toList) 0 (7 + 7))))
            ++ (("<w:tr>A</w:tr>").toList).drop (7 + 7), 0) := by
  refine ⟨rfl, ?_⟩
  exact (table_boundaries_around_scanned_index _).2 _ _ _ _ _ _ _ rfl (by decide) (by decide)
    (fun j h1 h2 => (by decide : ∀ j < 4, 0 < j →
      (("<w:tr").toList).isPrefixOf ((("<w:tr>A</w:tr>").toList).drop j) = false)
      j (by omega) h1)
    (by decide) (by decide)
    (fun j h1 h2 => (by decide : ∀ j < 7, 3 ≤ j →
      (("</w:tr>").toList).isPrefixOf ((("<w:tr>A</w:tr>").toList).drop j) = false)
      j h2 h1)

end DocxTemplater
